import Mathlib

/-!
# Verification of the layered-graph layout pipeline

This file is a shallow embedding, in Lean 4, of the core data structures and
algorithms of the `layout` graph-drawing library (Rust), together with proofs
of the behavioural properties stated in its design specification.

Conventions of the embedding:

* Rust `f64` coordinates are modelled by `ℚ` (the claims under study are about
  exact arithmetic relations - midpoints, averages, translations, comparisons -
  none of which hinges on floating-point rounding).
* Rust `usize` indices and `NodeHandle`s are modelled by `Nat`.
* Code that can hit a fatal assertion (`assert!`, `panic!`, `expect`) is
  modelled in the `Option` monad, `none` standing for the abort.
* Rust loops whose termination is not structural are modelled either by
  well-founded recursion (where the code's own guards provide a measure) or by
  an explicit fuel parameter (where the source offers no termination
  guarantee); fuel only truncates potential divergence and is noted at each
  use site.
-/

namespace Layout

/- Rational arithmetic is kept kernel-evaluable so that concrete runs of the
embedded algorithms can be checked by `decide`. -/
attribute [local semireducible] Rat.add Rat.sub Rat.mul Rat.inv

/-! ## Geometry primitives (`core/geometry.rs`) -/

/-- A 2-D coordinate or vector (`struct Point`). -/
structure Point where
  x : ℚ
  y : ℚ
deriving DecidableEq, Repr

namespace Point

/-- `Point::zero`. -/
def zero : Point := ⟨0, 0⟩

/-- `Point::new`. -/
def new (x y : ℚ) : Point := ⟨x, y⟩

/-- `Point::splat`. -/
def splat (s : ℚ) : Point := ⟨s, s⟩

/-- `Point::neg`. -/
def neg (p : Point) : Point := ⟨-p.x, -p.y⟩

/-- `Point::add`. -/
def add (p q : Point) : Point := ⟨p.x + q.x, p.y + q.y⟩

/-- `Point::sub`. -/
def sub (p q : Point) : Point := p.add q.neg

/-- `Point::scale`. -/
def scale (p : Point) (s : ℚ) : Point := ⟨p.x * s, p.y * s⟩

end Point

/-- `struct Position`: middle (absolute), size, center offset, halo
(`core/geometry.rs`). -/
structure Position where
  middle : Point
  size : Point
  center : Point
  halo : Point
deriving DecidableEq, Repr

namespace Position

/-- `Position::size(with_halo)`. -/
def sizeW (p : Position) (with_halo : Bool) : Point :=
  if with_halo then p.size.add p.halo else p.size

/-- `Position::bbox(with_halo)`: `(top_left, bottom_right)`. -/
def bbox (p : Position) (with_halo : Bool) : Point × Point :=
  let size := p.sizeW with_halo
  let top_left := p.middle.sub (size.scale (1/2))
  let bottom_right := top_left.add size
  (top_left, bottom_right)

/-- `Position::center()`: absolute center point. -/
def centerAbs (p : Position) : Point := p.middle.add p.center

/-- `Position::left(with_halo)`. -/
def left (p : Position) (with_halo : Bool) : ℚ := (p.bbox with_halo).1.x

/-- `Position::right(with_halo)`. -/
def right (p : Position) (with_halo : Bool) : ℚ := (p.bbox with_halo).2.x

/-- `Position::top(with_halo)`. -/
def top (p : Position) (with_halo : Bool) : ℚ := (p.bbox with_halo).1.y

/-- `Position::bottom(with_halo)`. -/
def bottom (p : Position) (with_halo : Bool) : ℚ := (p.bbox with_halo).2.y

/-- `Position::distance_to_left(with_halo)`. -/
def distance_to_left (p : Position) (with_halo : Bool) : ℚ :=
  p.centerAbs.x - (p.bbox with_halo).1.x

/-- `Position::distance_to_right(with_halo)`. -/
def distance_to_right (p : Position) (with_halo : Bool) : ℚ :=
  (p.bbox with_halo).2.x - p.centerAbs.x

/-- `Position::move_to(p)`: translate so that the center lands on `q`. -/
def move_to (p : Position) (q : Point) : Position :=
  let delta := q.sub p.centerAbs
  { p with middle := p.middle.add delta }

/-- `Position::translate(d)`. -/
def translate (p : Position) (d : Point) : Position :=
  { p with middle := p.middle.add d }

/-- `Position::align_to_top(y)`. -/
def align_to_top (p : Position) (y : ℚ) : Position :=
  { p with middle := ⟨p.middle.x, y + p.size.y / 2 + p.halo.y / 2⟩ }

/-- `Position::align_to_left(x)`. -/
def align_to_left (p : Position) (x : ℚ) : Position :=
  { p with middle := ⟨x + p.size.x / 2 + p.halo.x / 2, p.middle.y⟩ }

/-- `Position::align_to_right(x)`. -/
def align_to_right (p : Position) (x : ℚ) : Position :=
  { p with middle := ⟨x - p.size.x / 2 - p.halo.x / 2, p.middle.y⟩ }

/-- `Position::align_x(x, to_left)`. -/
def align_x (p : Position) (x : ℚ) (to_left : Bool) : Position :=
  let half_box := p.size.x / 2 + p.halo.x / 2
  if to_left then { p with middle := ⟨x + half_box, p.middle.y⟩ }
  else { p with middle := ⟨x - half_box, p.middle.y⟩ }

/-- `Position::set_x(x)`: align the center of the shape to `x`. -/
def set_x (p : Position) (x : ℚ) : Position :=
  { p with middle := ⟨x - p.center.x, p.middle.y⟩ }

/-- `Position::set_y(y)`. -/
def set_y (p : Position) (y : ℚ) : Position :=
  { p with middle := ⟨p.middle.x, y - p.center.y⟩ }

end Position

/-- The frame of a `Position`: every field except the movable middle point.
Two positions agree on the frame when placement has not resized or re-padded
the shape. -/
def sameFrame (p q : Position) : Prop :=
  q.size = p.size ∧ q.center = p.center ∧ q.halo = p.halo

/-- `in_range(range, x)`: `x` lies in the inclusive range. -/
def in_range (range : ℚ × ℚ) (x : ℚ) : Bool :=
  decide (x ≥ range.1) && decide (x ≤ range.2)

/-- `segment_rect_intersection(seg, rect)` (`core/geometry.rs`).
The Rust function asserts that the rectangle is normalized
(`rect.0 ≤ rect.1` componentwise); the assertion is a precondition here and
the function is modelled totally. -/
def segment_rect_intersection (seg : Point × Point) (rect : Point × Point) :
    Bool :=
  -- Vertical segment special case.
  if seg.1.x = seg.2.x then
    decide (seg.2.x ≥ rect.1.x) && decide (seg.2.x ≤ rect.2.x)
  else
    -- Outside of the x range.
    let above_x := seg.1.x < rect.1.x ∧ seg.2.x < rect.1.x
    let below_x := seg.1.x > rect.2.x ∧ seg.2.x > rect.2.x
    if above_x ∨ below_x then false
    else
      -- Outside of the y range.
      let above_y := seg.1.y < rect.1.y ∧ seg.2.y < rect.1.y
      let below_y := seg.1.y > rect.2.y ∧ seg.2.y > rect.2.y
      if above_y ∨ below_y then false
      else
        let dx := seg.2.x - seg.1.x
        let dy := seg.2.y - seg.1.y
        let a := dy / dx
        let b := seg.1.y - a * seg.1.x
        let y0 := a * rect.1.x + b
        let y1 := a * rect.2.x + b
        let above := y0 < rect.1.y ∧ y1 < rect.1.y
        let below := y0 > rect.2.y ∧ y1 > rect.2.y
        !(decide above || decide below)

/-- C9: every `Position` mutator used during placement - `move_to`,
`translate`, `align_to_top`, `align_to_left`, `align_to_right`, `align_x`,
`set_x` and `set_y` - modifies only the middle point: the size, the center
offset and the halo are unchanged, so placement can never resize a shape. -/
theorem position_mutators_preserve_frame (p : Position) (q d : Point)
    (x y : ℚ) (to_left : Bool) :
    sameFrame p (p.move_to q) ∧
    sameFrame p (p.translate d) ∧
    sameFrame p (p.align_to_top y) ∧
    sameFrame p (p.align_to_left x) ∧
    sameFrame p (p.align_to_right x) ∧
    sameFrame p (p.align_x x to_left) ∧
    sameFrame p (p.set_x x) ∧
    sameFrame p (p.set_y y) := by
  unfold sameFrame Position.move_to Position.translate Position.align_to_top
    Position.align_to_left Position.align_to_right Position.align_x
    Position.set_x Position.set_y
  refine ⟨⟨rfl, rfl, rfl⟩, ⟨rfl, rfl, rfl⟩, ⟨rfl, rfl, rfl⟩, ⟨rfl, rfl, rfl⟩,
    ⟨rfl, rfl, rfl⟩, ?_, ⟨rfl, rfl, rfl⟩, ⟨rfl, rfl, rfl⟩⟩
  cases to_left <;> simp

/-! ## The ranked DAG (`adt/dag.rs`)

`NodeHandle`s are bare `Nat` indices.  The `validate` flag of the Rust
structure only toggles the expensive `verify` self-check and carries no other
behaviour, so it is not a field of the model. -/

/-- `struct Node` of the DAG: successor and predecessor handle lists. -/
structure DagNode where
  successors : List Nat
  predecessors : List Nat
deriving DecidableEq, Repr

/-- `struct DAG`: nodes, per-level rows (`ranks`) and per-node levels. -/
structure DAG where
  nodes : List DagNode
  ranks : List (List Nat)
  levels : List Nat
deriving DecidableEq, Repr

/-- Apply `f` to the element at index `i`; out-of-range indexing aborts in
Rust and is a no-op here (theorems carry the range hypotheses instead). -/
def modifyAt (l : List α) (i : Nat) (f : α → α) : List α :=
  match l.get? i with
  | some a => l.set i (f a)
  | none => l

namespace DAG

/-- `DAG::len`. -/
def len (g : DAG) : Nat := g.nodes.length

/-- `DAG::is_empty`. -/
def is_empty (g : DAG) : Bool := g.nodes.isEmpty

/-- `DAG::successors(n)`; an out-of-range handle aborts in Rust and yields
the empty list here. -/
def successors (g : DAG) (n : Nat) : List Nat :=
  (g.nodes.getD n ⟨[], []⟩).successors

/-- `DAG::predecessors(n)`. -/
def predecessors (g : DAG) (n : Nat) : List Nat :=
  (g.nodes.getD n ⟨[], []⟩).predecessors

/-- `DAG::single_pred(n)`. -/
def single_pred (g : DAG) (n : Nat) : Option Nat :=
  if (g.predecessors n).length = 1 then (g.predecessors n).head? else none

/-- `DAG::single_succ(n)`. -/
def single_succ (g : DAG) (n : Nat) : Option Nat :=
  if (g.successors n).length = 1 then (g.successors n).head? else none

/-- `DAG::level(n)` (the Rust function asserts `n < len`). -/
def level (g : DAG) (n : Nat) : Nat := g.levels.getD n 0

/-- `DAG::num_levels`. -/
def num_levels (g : DAG) : Nat := g.ranks.length

/-- `DAG::row(level)` (asserted in range in Rust). -/
def row (g : DAG) (lvl : Nat) : List Nat := g.ranks.getD lvl []

/-- `DAG::add_edge(from, to)`: push `to` on the successor list of `from` and
`from` on the predecessor list of `to`. -/
def add_edge (g : DAG) (fr dst : Nat) : DAG :=
  let nodes := modifyAt g.nodes fr fun n =>
    { n with successors := n.successors ++ [dst] }
  let nodes := modifyAt nodes dst fun n =>
    { n with predecessors := n.predecessors ++ [fr] }
  { g with nodes := nodes }

/-- `DAG::remove_edge(from, to)`: erase the first occurrence of the edge on
each side; the final `assert_eq!(removed_pred, removed_succ)` is the `none`
case.  Out-of-range handles abort in Rust (`none` here). -/
def remove_edge (g : DAG) (fr dst : Nat) : Option (DAG × Bool) :=
  if fr < g.nodes.length ∧ dst < g.nodes.length then
    let removed_succ := (g.successors fr).contains dst
    let g1 : DAG := { g with nodes := modifyAt g.nodes fr fun n =>
      { n with successors := n.successors.erase dst } }
    let removed_pred := (g1.predecessors dst).contains fr
    let g2 : DAG := { g1 with nodes := modifyAt g1.nodes dst fun n =>
      { n with predecessors := n.predecessors.erase fr } }
    if removed_succ = removed_pred then some (g2, removed_pred) else none
  else none

/-- Pad the rank rows with empty rows until at least `n` rows exist
(the `while self.ranks.len() < level + 1` loops). -/
def extendRanks (ranks : List (List Nat)) (n : Nat) : List (List Nat) :=
  ranks ++ List.replicate (n - ranks.length) []

/-- `DAG::add_element_to_rank(elem, level, prepend)`. -/
def add_element_to_rank (g : DAG) (elem lvl : Nat) (prepend : Bool) : DAG :=
  let ranks := extendRanks g.ranks (lvl + 1)
  let ranks := modifyAt ranks lvl fun r =>
    if prepend then elem :: r else r ++ [elem]
  { g with
    ranks := ranks
    levels := g.levels.set elem lvl }

/-- `DAG::new_node()`: append a fresh node, place it on level 0, and return
its handle. -/
def new_node (g : DAG) : DAG × Nat :=
  let g1 : DAG := { g with
    nodes := g.nodes ++ [⟨[], []⟩]
    levels := g.levels ++ [0] }
  let node := g1.nodes.length - 1
  (g1.add_element_to_rank node 0 false, node)

/-- `DAG::update_node_rank_level(node, new_level, insert_before)`: move a
node between rows.  The `expect("node not found")`, the missing-marker abort
and the trailing `assert_eq!(self.level(node), new_level)` are the `none`
cases. -/
def update_node_rank_level (g : DAG) (node new_level : Nat)
    (insert_before : Option Nat) : Option DAG :=
  if node < g.nodes.length then
    let curr_level := g.level node
    if curr_level < g.ranks.length then
      let r := g.row curr_level
      match r.indexOf? node with
      | none => none
      | some idx =>
        let g1 : DAG := { g with ranks := g.ranks.set curr_level (r.eraseIdx idx) }
        let ranks := extendRanks g1.ranks (new_level + 1)
        match insert_before with
        | some marker =>
          let r2 := ranks.getD new_level []
          match r2.indexOf? marker with
          | none => none
          | some i =>
            some { g1 with
              ranks := ranks.set new_level (r2.insertIdx i node)
              levels := g1.levels.set node new_level }
        | none =>
          let g2 : DAG := { g1 with
            ranks := ranks.set new_level ((ranks.getD new_level []) ++ [node])
            levels := g1.levels.set node new_level }
          if g2.level node = new_level then some g2 else none
    else none
  else none

/-- `DAG::is_reachable_inner`: path-marking DFS.  The recursion is bounded by
a fuel argument; a depth of `nodes.length + 1` can never be exhausted because
every recursive step marks one more node visited. -/
def is_reachable_inner (g : DAG) :
    Nat → Nat → Nat → List Bool → Bool × List Bool
  | 0, _, _, visited => (false, visited)
  | fuel + 1, fr, dst, visited =>
    if fr = dst then (true, visited)
    else if visited.getD fr false then (false, visited)
    else
      let visited := visited.set fr true
      let res := (g.successors fr).foldl
        (fun acc e =>
          if acc.1 then acc else is_reachable_inner g fuel e dst acc.2)
        (false, visited)
      if res.1 then res else (false, res.2.set fr false)

/-- `DAG::is_reachable(from, to)`. -/
def is_reachable (g : DAG) (fr dst : Nat) : Bool :=
  if fr = dst then true
  else
    let visited := List.replicate g.nodes.length false
    (is_reachable_inner g (g.nodes.length + 1) fr dst visited).1

/-- The cycle condition tested for each successor edge `from -> dest` inside
`DAG::verify`: `is_reachable(dest, from) && from != dest` (the assertion
fires when this is `true`). -/
def verify_cycle_check (g : DAG) (fr dest : Nat) : Bool :=
  is_reachable g dest fr && decide (fr ≠ dest)

end DAG

/-- C10: `is_reachable(n, n)` returns `true` for every DAG and every node -
reachability is reflexive by definition, even for a node with no incident
edges - and consequently the cycle check in `verify` evaluates to `false` on
a self-pair because it explicitly excludes `from == dest`. -/
theorem is_reachable_reflexive :
    (∀ (g : DAG) (n : Nat), g.is_reachable n n = true) ∧
    (∀ (g : DAG) (n : Nat), g.verify_cycle_check n n = false) := by
  constructor
  · intro g n
    simp [DAG.is_reachable]
  · intro g n
    simp [DAG.verify_cycle_check]

section RemoveEdgeLemmas

/-- Reading a modified index. -/
theorem modifyAt_getD_self (l : List α) (i : Nat) (f : α → α) (d : α)
    (h : i < l.length) : (modifyAt l i f).getD i d = f (l.getD i d) := by
  unfold modifyAt
  rw [List.get?_eq_getElem?, List.getElem?_eq_getElem h]
  simp only [List.getD, List.get?_eq_getElem?, List.getElem?_set_eq_of_lt _ h,
    List.getElem?_eq_getElem h, Option.getD_some]

/-- Reading an unmodified index. -/
theorem modifyAt_getD_other (l : List α) (i j : Nat) (f : α → α) (d : α)
    (h : j ≠ i) : (modifyAt l i f).getD j d = l.getD j d := by
  unfold modifyAt
  cases hg : l.get? i with
  | none => rfl
  | some a =>
    simp only [List.getD, List.get?_eq_getElem?,
      List.getElem?_set_ne (fun he => h he.symm)]

theorem modifyAt_length (l : List α) (i : Nat) (f : α → α) :
    (modifyAt l i f).length = l.length := by
  unfold modifyAt
  cases l.get? i <;> simp

end RemoveEdgeLemmas

/-- The symmetry invariant of the DAG, with multiplicities: an edge occurs as
often in the successor list of its source as in the predecessor list of its
target (bounded to real handles so that the property is decidable; lists of
out-of-range handles are empty). -/
def DAG.symmetric (g : DAG) : Prop :=
  ∀ a < g.len, ∀ b < g.len,
    (g.successors a).count b = (g.predecessors b).count a

/-- Every handle stored in an adjacency list refers to a real node. -/
def DAG.edges_in_range (g : DAG) : Prop :=
  (∀ a < g.len, ∀ b ∈ g.successors a, b < g.len) ∧
  (∀ b < g.len, ∀ a ∈ g.predecessors b, a < g.len)

instance (g : DAG) : Decidable g.symmetric := by
  unfold DAG.symmetric; infer_instance

instance (g : DAG) : Decidable g.edges_in_range := by
  unfold DAG.edges_in_range; infer_instance

section RemoveEdgeProof

theorem modifyAt_oob (l : List α) (i : Nat) (f : α → α)
    (h : ¬ i < l.length) : modifyAt l i f = l := by
  unfold modifyAt
  rw [List.get?_eq_getElem?, List.getElem?_eq_none (by omega)]

private theorem succ_modify_succ (nodes : List DagNode)
    (ranks : List (List Nat)) (levels : List Nat) (i v : Nat)
    (hi : i < nodes.length) (a : Nat) :
    DAG.successors ⟨modifyAt nodes i fun n =>
        { n with successors := n.successors.erase v }, ranks, levels⟩ a =
      if a = i then (DAG.successors ⟨nodes, ranks, levels⟩ a).erase v
      else DAG.successors ⟨nodes, ranks, levels⟩ a := by
  simp only [DAG.successors]
  by_cases h : a = i
  · subst h
    rw [modifyAt_getD_self _ _ _ _ hi, if_pos rfl]
  · rw [modifyAt_getD_other _ _ _ _ _ h, if_neg h]

private theorem pred_modify_succ (nodes : List DagNode)
    (ranks : List (List Nat)) (levels : List Nat) (i v : Nat) (b : Nat) :
    DAG.predecessors ⟨modifyAt nodes i fun n =>
        { n with successors := n.successors.erase v }, ranks, levels⟩ b =
      DAG.predecessors ⟨nodes, ranks, levels⟩ b := by
  simp only [DAG.predecessors]
  by_cases h : b = i
  · subst h
    by_cases hb : b < nodes.length
    · rw [modifyAt_getD_self _ _ _ _ hb]
    · rw [modifyAt_oob _ _ _ hb]
  · rw [modifyAt_getD_other _ _ _ _ _ h]

private theorem pred_modify_pred (nodes : List DagNode)
    (ranks : List (List Nat)) (levels : List Nat) (i v : Nat)
    (hi : i < nodes.length) (b : Nat) :
    DAG.predecessors ⟨modifyAt nodes i fun n =>
        { n with predecessors := n.predecessors.erase v }, ranks, levels⟩ b =
      if b = i then (DAG.predecessors ⟨nodes, ranks, levels⟩ b).erase v
      else DAG.predecessors ⟨nodes, ranks, levels⟩ b := by
  simp only [DAG.predecessors]
  by_cases h : b = i
  · subst h
    rw [modifyAt_getD_self _ _ _ _ hi, if_pos rfl]
  · rw [modifyAt_getD_other _ _ _ _ _ h, if_neg h]

private theorem succ_modify_pred (nodes : List DagNode)
    (ranks : List (List Nat)) (levels : List Nat) (i v : Nat) (a : Nat) :
    DAG.successors ⟨modifyAt nodes i fun n =>
        { n with predecessors := n.predecessors.erase v }, ranks, levels⟩ a =
      DAG.successors ⟨nodes, ranks, levels⟩ a := by
  simp only [DAG.successors]
  by_cases h : a = i
  · subst h
    by_cases ha : a < nodes.length
    · rw [modifyAt_getD_self _ _ _ _ ha]
    · rw [modifyAt_oob _ _ _ ha]
  · rw [modifyAt_getD_other _ _ _ _ _ h]

private theorem succ_eta (g : DAG) (a : Nat) :
    DAG.successors ⟨g.nodes, g.ranks, g.levels⟩ a = g.successors a := rfl

private theorem pred_eta (g : DAG) (b : Nat) :
    DAG.predecessors ⟨g.nodes, g.ranks, g.levels⟩ b = g.predecessors b := rfl

/-- C8: on a DAG satisfying the symmetry invariant, `remove_edge(a, b)`
returns `true` exactly when an edge `a -> b` was present, and on return it has
erased exactly one occurrence of the edge from the successor list of `a` and
one from the predecessor list of `b`, leaving every other list untouched, so
the symmetry invariant still holds.  If the edge is present on only one of
the two sides, the call hits `assert_eq!(removed_pred, removed_succ)` and
aborts (`none`). -/
theorem remove_edge_spec (g : DAG) (fr dst : Nat)
    (hf : fr < g.len) (ht : dst < g.len) :
    (g.symmetric → g.edges_in_range →
      ∃ g2, g.remove_edge fr dst = some (g2, (g.successors fr).contains dst) ∧
        g2.successors fr = (g.successors fr).erase dst ∧
        g2.predecessors dst = (g.predecessors dst).erase fr ∧
        (∀ a, a ≠ fr → g2.successors a = g.successors a) ∧
        (∀ b, b ≠ dst → g2.predecessors b = g.predecessors b) ∧
        g2.len = g.len ∧ g2.symmetric ∧ g2.edges_in_range) ∧
    ((g.successors fr).contains dst ≠ (g.predecessors dst).contains fr →
      g.remove_edge fr dst = none) := by
  have hf' : fr < g.nodes.length := hf
  have ht' : dst < g.nodes.length := ht
  constructor
  · intro hsym hrange
    -- With the symmetry invariant, presence on the two sides agrees.
    have hcnt := hsym fr hf dst ht
    have hpresent : (g.predecessors dst).contains fr =
        (g.successors fr).contains dst := by
      by_cases hmem : dst ∈ g.successors fr
      · have hmem2 : fr ∈ g.predecessors dst := by
          have h1 := List.count_pos_iff.mpr hmem
          exact List.count_pos_iff.mp (by omega)
        simp [hmem, hmem2]
      · have hmem2 : fr ∉ g.predecessors dst := by
          intro hc
          have h1 := List.count_pos_iff.mpr hc
          have h0 : (g.successors fr).count dst = 0 := List.count_eq_zero.mpr hmem
          omega
        simp [hmem, hmem2]
    unfold DAG.remove_edge
    rw [if_pos ⟨hf', ht'⟩]
    simp only [pred_modify_succ, pred_eta, hpresent, if_true]
    refine ⟨_, rfl, ?_, ?_, ?_, ?_, ?_, ?_, ?_⟩
    · rw [succ_modify_pred, succ_modify_succ _ _ _ _ _ hf', if_pos rfl, succ_eta]
    · rw [pred_modify_pred _ _ _ _ _ (by rwa [modifyAt_length]), if_pos rfl,
        pred_modify_succ, pred_eta]
    · intro a ha
      rw [succ_modify_pred, succ_modify_succ _ _ _ _ _ hf', if_neg ha, succ_eta]
    · intro b hb
      rw [pred_modify_pred _ _ _ _ _ (by rwa [modifyAt_length]), if_neg hb,
        pred_modify_succ, pred_eta]
    · show (modifyAt _ _ _).length = g.nodes.length
      rw [modifyAt_length, modifyAt_length]
    · -- The symmetry invariant is preserved.
      intro a ha b hb
      simp only [DAG.len, modifyAt_length] at ha hb
      have hab := hsym a ha b hb
      rw [succ_modify_pred, succ_modify_succ _ _ _ _ _ hf', succ_eta,
        pred_modify_pred _ _ _ _ _ (by rwa [modifyAt_length]),
        pred_modify_succ, pred_eta]
      by_cases hea : a = fr <;> by_cases heb : b = dst
      · rw [if_pos hea, if_pos heb, hea, heb]
        by_cases hmem : dst ∈ g.successors fr
        · rw [List.count_erase_self, List.count_erase_self, hcnt]
        · have hmem2 : fr ∉ g.predecessors dst := by
            intro hc
            have h1 := List.count_pos_iff.mpr hc
            have h0 : (g.successors fr).count dst = 0 :=
              List.count_eq_zero.mpr hmem
            omega
          rw [List.erase_of_not_mem hmem, List.erase_of_not_mem hmem2, hcnt]
      · rw [if_pos hea, if_neg heb, List.count_erase_of_ne heb]
        exact hab
      · rw [if_neg hea, if_pos heb, List.count_erase_of_ne hea]
        exact hab
      · rw [if_neg hea, if_neg heb]
        exact hab
    · -- Adjacency lists still hold only real handles.
      constructor
      · intro a ha b hbmem
        simp only [DAG.len, modifyAt_length] at ha ⊢
        rw [succ_modify_pred, succ_modify_succ _ _ _ _ _ hf', succ_eta] at hbmem
        by_cases hea : a = fr
        · rw [if_pos hea] at hbmem
          exact hrange.1 a ha b (List.mem_of_mem_erase hbmem)
        · rw [if_neg hea] at hbmem
          exact hrange.1 a ha b hbmem
      · intro b hb a hamem
        simp only [DAG.len, modifyAt_length] at hb ⊢
        rw [pred_modify_pred _ _ _ _ _ (by rwa [modifyAt_length]),
          pred_modify_succ, pred_eta] at hamem
        by_cases heb : b = dst
        · rw [if_pos heb] at hamem
          exact hrange.2 b hb a (List.mem_of_mem_erase hamem)
        · rw [if_neg heb] at hamem
          exact hrange.2 b hb a hamem
  · intro hdiff
    unfold DAG.remove_edge
    rw [if_pos ⟨hf', ht'⟩]
    simp only [pred_modify_succ, pred_eta]
    rw [if_neg (by intro hc; exact hdiff hc)]

/-- A concrete two-node DAG with the single edge `0 -> 1`, used to witness
the `remove_edge` contract. -/
def cdagRemove : DAG :=
  { nodes := [⟨[1], []⟩, ⟨[], [0]⟩], ranks := [[0, 1]], levels := [0, 0] }

/-- Witness for C8: the `remove_edge` contract evaluated on `cdagRemove`. -/
theorem remove_edge_spec_witness :
    ∃ g2, cdagRemove.remove_edge 0 1 =
        some (g2, (cdagRemove.successors 0).contains 1) ∧
      g2.successors 0 = (cdagRemove.successors 0).erase 1 ∧
      g2.predecessors 1 = (cdagRemove.predecessors 1).erase 0 ∧
      (∀ a, a ≠ 0 → g2.successors a = cdagRemove.successors a) ∧
      (∀ b, b ≠ 1 → g2.predecessors b = cdagRemove.predecessors b) ∧
      g2.len = cdagRemove.len ∧ g2.symmetric ∧ g2.edges_in_range :=
  (remove_edge_spec cdagRemove 0 1 (by decide) (by decide)).1
    (by decide) (by decide)

end RemoveEdgeProof

/-! ## Rank optimizer (`topo/optimizer.rs`, `RankOptimizer`) -/

/-- `RankOptimizer::try_to_sink_node(node)`: sink a node towards its
successors when that does not increase the number of live edges.
`highest_next` starts at `self.dag.len()` exactly as in the source.  The
`Option` layer comes from `update_node_rank_level`. -/
def DAG.try_to_sink_node (g : DAG) (node : Nat) : Option (DAG × Bool) :=
  let backs := g.predecessors node
  let fwds := g.successors node
  if backs.length > fwds.length ∨ backs.length + fwds.length = 0 then
    some (g, false)
  else
    let curr_rank := g.level node
    let highest_next := fwds.foldl (fun h e => min h (g.level e)) g.len
    if curr_rank + 1 < highest_next then
      match g.update_node_rank_level node (highest_next - 1) none with
      | some g2 => some (g2, true)
      | none => none
    else
      some (g, false)

/-- Total edge length of the DAG: the sum over every successor edge
`a -> b` of `rank[b] - rank[a]` (as integers). -/
def total_edge_length (g : DAG) : ℤ :=
  ((List.range g.len).map fun a =>
    ((g.successors a).map fun b => (g.level b : ℤ) - (g.level a : ℤ)).sum).sum

/-- The graph used to refute the strict-decrease part of the sink claim:
a chain `p -> a1 -> a2 -> a3 -> a4 -> s` plus `p -> n -> s`, ranked by
longest path.  Node `n` (handle 1) has one predecessor and one successor,
and sinking it from level 1 to level 4 keeps the total edge length at 10. -/
def cdagSink : DAG :=
  { nodes := [⟨[1, 3], []⟩, ⟨[2], [0]⟩, ⟨[], [1, 6]⟩, ⟨[4], [0]⟩,
      ⟨[5], [3]⟩, ⟨[6], [4]⟩, ⟨[2], [5]⟩]
    ranks := [[0], [1, 3], [4], [5], [6], [2]]
    levels := [0, 1, 5, 1, 2, 3, 4] }

/-- Counterexample for C5: `try_to_sink_node` does move node 1 of
`cdagSink` (the guard `|pred| <= |succ|` admits the case `|pred| = |succ|`),
yet the total edge length does not strictly decrease - it is unchanged.
This refutes the claim that every such move strictly decreases the total
edge length summed over the graph. -/
theorem try_to_sink_node_not_strictly_decreasing :
    ∃ g2, cdagSink.try_to_sink_node 1 = some (g2, true) ∧
      ¬ total_edge_length g2 < total_edge_length cdagSink := by
  refine ⟨_, rfl, ?_⟩
  decide

section SinkLemmas

private theorem getD_set_self (l : List Nat) (i v d : Nat) (h : i < l.length) :
    (l.set i v).getD i d = v := by
  simp [List.getD, List.get?_eq_getElem?, List.getElem?_set_eq_of_lt _ h]

private theorem getD_set_other (l : List Nat) (i j v d : Nat) (h : j ≠ i) :
    (l.set i v).getD j d = l.getD j d := by
  simp [List.getD, List.get?_eq_getElem?,
    List.getElem?_set_ne (fun he => h he.symm)]

private theorem sum_map_sub (l : List α) (f g : α → ℤ) :
    (l.map fun x => f x - g x).sum = (l.map f).sum - (l.map g).sum := by
  induction l with
  | nil => simp
  | cons x t ih =>
    simp only [List.map_cons, List.sum_cons, ih]
    ring

private theorem sum_map_add (l : List α) (f g : α → ℤ) :
    (l.map fun x => f x + g x).sum = (l.map f).sum + (l.map g).sum := by
  induction l with
  | nil => simp
  | cons x t ih =>
    simp only [List.map_cons, List.sum_cons, ih]
    ring

private theorem sum_map_indicator (l : List Nat) (v : Nat) (c : ℤ) :
    (l.map fun b => if b = v then c else 0).sum = (l.count v : ℤ) * c := by
  induction l with
  | nil => simp
  | cons x t ih =>
    by_cases hx : x = v
    · subst hx
      simp only [List.map_cons, List.sum_cons, if_pos rfl, ih,
        List.count_cons_self]
      push_cast
      ring
    · simp only [List.map_cons, List.sum_cons, if_neg hx, ih,
        List.count_cons_of_ne (fun he => hx he.symm)]
      ring

private theorem sum_range_single (f : Nat → ℤ) (v : Nat) :
    ∀ n, ((List.range n).map fun a => if a = v then f a else 0).sum =
      if v < n then f v else 0 := by
  intro n
  induction n with
  | zero => simp
  | succ k ih =>
    rw [List.range_succ, List.map_append, List.sum_append, ih]
    simp only [List.map_cons, List.map_nil, List.sum_cons, List.sum_nil]
    by_cases h1 : v < k
    · have h2 : ¬ k = v := by omega
      simp [h1, h2, show v < k + 1 by omega]
    · by_cases h2 : k = v
      · subst h2
        simp [h1, show k < k + 1 by omega]
      · have h3 : ¬ v < k + 1 := by omega
        simp [h1, h2, h3]

private theorem sum_count_range (l : List Nat) (n : Nat)
    (h : ∀ x ∈ l, x < n) :
    ((List.range n).map fun a => (l.count a : ℤ)).sum = l.length := by
  induction l with
  | nil => simp
  | cons x t ih =>
    have hx : x < n := h x (List.mem_cons_self x t)
    have ht : ∀ y ∈ t, y < n := fun y hy => h y (List.mem_cons_of_mem _ hy)
    have hcong : ∀ a ∈ List.range n, ((x :: t).count a : ℤ) =
        (t.count a : ℤ) + (if a = x then 1 else 0) := by
      intro a _
      by_cases hax : a = x
      · subst hax
        simp [List.count_cons_self]
      · simp [List.count_cons_of_ne hax, hax]
    rw [List.map_congr_left hcong, sum_map_add, ih ht,
      sum_range_single (fun _ => (1 : ℤ)) x n, if_pos hx]
    simp

private theorem foldl_min_const (t : List Nat) (m : Nat)
    (h : ∀ y ∈ t, m ≤ y) : t.foldl min m = m := by
  induction t with
  | nil => rfl
  | cons y ys ih =>
    have hy : m ≤ y := h y (List.mem_cons_self y ys)
    rw [List.foldl_cons, Nat.min_eq_left hy]
    exact ih fun z hz => h z (List.mem_cons_of_mem _ hz)

private theorem foldl_min_eq (l : List Nat) (m : Nat) :
    ∀ s, m ∈ l → (∀ y ∈ l, m ≤ y) → m ≤ s → l.foldl min s = m := by
  induction l with
  | nil =>
    intro s hm
    simp at hm
  | cons x t ih =>
    intro s hm hle hs
    rw [List.foldl_cons]
    by_cases hmt : m ∈ t
    · exact ih (min s x) hmt (fun y hy => hle y (List.mem_cons_of_mem _ hy))
        (le_min hs (hle x (List.mem_cons_self x t)))
    · have hx : m = x := by
        rcases List.mem_cons.mp hm with h | h
        · exact h
        · exact absurd h hmt
      rw [← hx, Nat.min_eq_right hs]
      exact foldl_min_const t m fun y hy => hle y (List.mem_cons_of_mem _ hy)

private theorem exists_list_min (l : List Nat) (h : l ≠ []) :
    ∃ m ∈ l, ∀ y ∈ l, m ≤ y := by
  induction l with
  | nil => exact absurd rfl h
  | cons x t ih =>
    cases t with
    | nil =>
      exact ⟨x, List.mem_cons_self x [], by
        intro y hy
        rcases List.mem_cons.mp hy with h1 | h1
        · omega
        · simp at h1⟩
    | cons z zs =>
      obtain ⟨m, hm, hle⟩ := ih (by simp)
      by_cases hxm : x ≤ m
      · refine ⟨x, List.mem_cons_self _ _, ?_⟩
        intro y hy
        rcases List.mem_cons.mp hy with h1 | h1
        · omega
        · exact le_trans hxm (hle y h1)
      · refine ⟨m, List.mem_cons_of_mem _ hm, ?_⟩
        intro y hy
        rcases List.mem_cons.mp hy with h1 | h1
        · omega
        · exact hle y h1

/-- When the moving node is found in its own row, `update_node_rank_level`
with no marker succeeds and only changes the rank rows and the level of the
moved node. -/
private theorem update_rank_some (g : DAG) (node new_level : Nat)
    (hnode : node < g.nodes.length)
    (hlev : g.levels.length = g.nodes.length)
    (hranks : g.level node < g.ranks.length)
    (hrow : node ∈ g.row (g.level node)) :
    ∃ R, g.update_node_rank_level node new_level none =
      some { g with ranks := R, levels := g.levels.set node new_level } := by
  unfold DAG.update_node_rank_level
  rw [if_pos hnode, if_pos hranks]
  have hidx : ((g.row (g.level node)).indexOf? node).isSome := by
    unfold List.indexOf?
    rw [List.findIdx?_isSome]
    exact List.any_eq_true.mpr ⟨node, hrow, by simp⟩
  cases hfind : (g.row (g.level node)).indexOf? node with
  | none => rw [hfind] at hidx; simp at hidx
  | some idx =>
    have hgetset : (g.levels.set node new_level).getD node 0 = new_level :=
      getD_set_self _ _ _ _ (by omega)
    simp only [hfind]
    split
    · exact ⟨_, rfl⟩
    · rename_i hcond
      exact absurd hgetset hcond

end SinkLemmas

private theorem sum_map_const (l : List α) (c : ℤ) :
    (l.map fun _ => c).sum = (l.length : ℤ) * c := by
  induction l with
  | nil => simp
  | cons x t ih =>
    simp only [List.map_cons, List.sum_cons, List.length_cons, ih]
    push_cast
    ring

private theorem foldl_min_level (g : DAG) (l : List Nat) :
    ∀ s, l.foldl (fun h e => min h (g.level e)) s = (l.map g.level).foldl min s := by
  induction l with
  | nil => intro s; rfl
  | cons x t ih =>
    intro s
    rw [List.foldl_cons, List.map_cons, List.foldl_cons, ih]

/-- C5 (amended): `try_to_sink_node(n)` moves `n` to `min_succ_level - 1`
exactly when `|pred(n)| <= |succ(n)|`, `n` has at least one neighbor, and
`min_succ_level > rank[n] + 1` (where `min_succ_level` is the minimum rank
among the successors of `n`).  Such a move never increases the total edge
length summed over the graph, and decreases it strictly when
`|pred(n)| < |succ(n)|`; when `|pred(n)| = |succ(n)|` the total is unchanged,
so the move is monotone but not strictly decreasing in general. -/
theorem try_to_sink_node_spec (g : DAG) (node : Nat)
    (hnode : node < g.len)
    (hlev : g.levels.length = g.nodes.length)
    (hlevlt : ∀ x, x < g.len → g.level x < g.len)
    (hsym : g.symmetric) (hrange : g.edges_in_range)
    (hranks : g.level node < g.ranks.length)
    (hrow : node ∈ g.row (g.level node)) :
    ∃ g2 moved, g.try_to_sink_node node = some (g2, moved) ∧
      (moved = true ↔
        ((g.predecessors node).length ≤ (g.successors node).length ∧
          (g.predecessors node).length + (g.successors node).length ≠ 0 ∧
          ∃ m, m ∈ (g.successors node).map g.level ∧
            (∀ y ∈ (g.successors node).map g.level, m ≤ y) ∧
            g.level node + 1 < m)) ∧
      (moved = false → g2 = g) ∧
      (moved = true → ∀ m, m ∈ (g.successors node).map g.level →
        (∀ y ∈ (g.successors node).map g.level, m ≤ y) →
        g2.level node = m - 1 ∧
        total_edge_length g2 ≤ total_edge_length g ∧
        ((g.predecessors node).length < (g.successors node).length →
          total_edge_length g2 < total_edge_length g)) := by
  have hlen : g.len = g.nodes.length := rfl
  simp only [DAG.try_to_sink_node]
  by_cases hguard : (g.predecessors node).length > (g.successors node).length ∨
      (g.predecessors node).length + (g.successors node).length = 0
  · rw [if_pos hguard]
    refine ⟨g, false, rfl, ?_, fun _ => rfl, ?_⟩
    · constructor
      · intro h
        exact absurd h (by simp)
      · rintro ⟨h1, h2, -⟩
        omega
    · intro h
      exact absurd h (by simp)
  · rw [if_neg hguard]
    push_neg at hguard
    obtain ⟨hg1, hg2⟩ := hguard
    have hsuccne : g.successors node ≠ [] := by
      intro he
      rw [he] at hg1 hg2
      simp only [List.length_nil] at hg1 hg2
      omega
    obtain ⟨m, hmem, hle⟩ := exists_list_min ((g.successors node).map g.level)
      (by intro he; exact hsuccne (by simpa using he))
    have hmlt : m < g.len := by
      obtain ⟨b, hb, hbeq⟩ := List.mem_map.mp hmem
      exact hbeq ▸ hlevlt b (hrange.1 node hnode b hb)
    have hfold : (g.successors node).foldl
        (fun h e => min h (g.level e)) g.len = m := by
      rw [foldl_min_level]
      exact foldl_min_eq _ m g.len hmem hle (le_of_lt hmlt)
    rw [hfold]
    by_cases hcond : g.level node + 1 < m
    · rw [if_pos hcond]
      have hnodelev : node < g.levels.length := by
        rw [hlev]
        exact hnode
      obtain ⟨R, hupd⟩ := update_rank_some g node (m - 1) hnode hlev hranks hrow
      rw [hupd]
      refine ⟨_, true, rfl, iff_of_true rfl ⟨hg1, hg2, m, hmem, hle, hcond⟩,
        fun h => absurd h (by simp), ?_⟩
      intro _ m2 hmem2 hle2
      have hm2 : m2 = m := le_antisymm (hle2 m hmem) (hle m2 hmem2)
      subst hm2
      -- Notation for the updated graph.
      set g2 : DAG :=
        { g with ranks := R, levels := g.levels.set node (m2 - 1) } with hg2def
      have hsucc2 : ∀ a, g2.successors a = g.successors a := fun _ => rfl
      have hlnode : g2.level node = m2 - 1 :=
        getD_set_self _ _ _ _ hnodelev
      have hlother : ∀ x, x ≠ node → g2.level x = g.level x := fun x hx =>
        getD_set_other _ _ _ _ _ hx
      refine ⟨hlnode, ?_⟩
      set δ : ℤ := ((m2 - 1 : ℕ) : ℤ) - (g.level node : ℤ) with hde
      have hδpos : 0 < δ := by
        rw [hde]
        omega
      have htot : total_edge_length g2 - total_edge_length g =
          ((g.predecessors node).length : ℤ) * δ -
          ((g.successors node).length : ℤ) * δ := by
        unfold total_edge_length
        have hlen2 : g2.len = g.len := rfl
        rw [hlen2, ← sum_map_sub]
        have hpointwise : ∀ a ∈ List.range g.len,
            ((g2.successors a).map fun b =>
               (g2.level b : ℤ) - (g2.level a : ℤ)).sum -
            ((g.successors a).map fun b =>
               (g.level b : ℤ) - (g.level a : ℤ)).sum
            = ((g.successors a).count node : ℤ) * δ -
              (if a = node then ((g.successors a).length : ℤ) * δ else 0) := by
          intro a _
          rw [hsucc2 a, ← sum_map_sub]
          have hsummand : ∀ b ∈ g.successors a,
              ((g2.level b : ℤ) - (g2.level a : ℤ)) -
                ((g.level b : ℤ) - (g.level a : ℤ))
              = (if b = node then δ else 0) -
                (if a = node then δ else 0) := by
            intro b _
            by_cases hbn : b = node <;> by_cases han : a = node
            · subst hbn
              subst han
              rw [hlnode, if_pos rfl]
              ring
            · subst hbn
              rw [hlnode, hlother a han, if_pos rfl, if_neg han, hde]
              ring
            · subst han
              rw [hlother b hbn, hlnode, if_neg hbn, if_pos rfl, hde]
              ring
            · rw [hlother b hbn, hlother a han, if_neg hbn, if_neg han]
              ring
          rw [List.map_congr_left hsummand, sum_map_sub, sum_map_indicator]
          rw [sum_map_const]
          by_cases han : a = node
          · rw [if_pos han, if_pos han]
          · rw [if_neg han, if_neg han]
            ring
        rw [List.map_congr_left hpointwise, sum_map_sub]
        have hcnts : ((List.range g.len).map fun a =>
            ((g.successors a).count node : ℤ) * δ).sum
            = ((g.predecessors node).length : ℤ) * δ := by
          rw [List.sum_map_mul_right]
          have hc2 : ∀ a ∈ List.range g.len,
              ((g.successors a).count node : ℤ) =
              ((g.predecessors node).count a : ℤ) := by
            intro a ha
            rw [hsym a (List.mem_range.mp ha) node hnode]
          rw [List.map_congr_left hc2,
            sum_count_range _ _ (hrange.2 node hnode)]
        have hsingle : ((List.range g.len).map fun a =>
            if a = node then ((g.successors a).length : ℤ) * δ else 0).sum
            = ((g.successors node).length : ℤ) * δ := by
          rw [sum_range_single (fun a => ((g.successors a).length : ℤ) * δ)
            node g.len, if_pos hnode]
        rw [hcnts, hsingle]
      have hple : ((g.predecessors node).length : ℤ) ≤
          ((g.successors node).length : ℤ) := by
        exact_mod_cast hg1
      constructor
      · nlinarith [htot, hδpos, hple]
      · intro hlt
        have hplt : ((g.predecessors node).length : ℤ) <
            ((g.successors node).length : ℤ) := by
          exact_mod_cast hlt
        nlinarith [htot, hδpos, hplt]
    · rw [if_neg hcond]
      refine ⟨g, false, rfl, ?_, fun _ => rfl, ?_⟩
      · constructor
        · intro h
          exact absurd h (by simp)
        · rintro ⟨-, -, m2, hmem2, hle2, hcond2⟩
          have hm2 : m2 = m := le_antisymm (hle2 m hmem) (hle m2 hmem2)
          omega
      · intro h
        exact absurd h (by simp)

/-- Witness for C5 (amended): `try_to_sink_node` applied to node 1 of
`cdagSink`, where the move happens and the total edge length is preserved. -/
theorem try_to_sink_node_spec_witness :
    ∃ g2 moved, cdagSink.try_to_sink_node 1 = some (g2, moved) ∧
      (moved = true ↔
        ((cdagSink.predecessors 1).length ≤ (cdagSink.successors 1).length ∧
          (cdagSink.predecessors 1).length + (cdagSink.successors 1).length ≠ 0 ∧
          ∃ m, m ∈ (cdagSink.successors 1).map cdagSink.level ∧
            (∀ y ∈ (cdagSink.successors 1).map cdagSink.level, m ≤ y) ∧
            cdagSink.level 1 + 1 < m)) ∧
      (moved = false → g2 = cdagSink) ∧
      (moved = true → ∀ m, m ∈ (cdagSink.successors 1).map cdagSink.level →
        (∀ y ∈ (cdagSink.successors 1).map cdagSink.level, m ≤ y) →
        g2.level 1 = m - 1 ∧
        total_edge_length g2 ≤ total_edge_length cdagSink ∧
        ((cdagSink.predecessors 1).length < (cdagSink.successors 1).length →
          total_edge_length g2 < total_edge_length cdagSink)) :=
  try_to_sink_node_spec cdagSink 1 (by decide) (by decide) (by decide)
    (by decide) (by decide) (by decide) (by decide)

/-! ## Crossing optimizer (`topo/optimizer.rs`, `EdgeCrossOptimizer`) -/

/-- `enum Direction` (`core/base.rs`). -/
inductive Direction where
  | Up
  | Down
  | Both
  | None
deriving DecidableEq, Repr

/-- `Direction::is_down`. -/
def Direction.is_down : Direction → Bool
  | .None | .Up => false
  | .Both | .Down => true

/-- `Direction::is_up`. -/
def Direction.is_up : Direction → Bool
  | .Both | .Up => true
  | .None | .Down => false

/-- `EdgeCrossOptimizer::num_crossing(a, b, row)`: walking `row` left to
right, add the number of already-seen `b`-edges each time an `a`-edge is
found (successor and predecessor edges both count). -/
def num_crossing (g : DAG) (a b : Nat) (row : List Nat) : Nat :=
  let a_edges1 := g.successors a
  let a_edges2 := g.predecessors a
  let b_edges1 := g.successors b
  let b_edges2 := g.predecessors b
  (row.foldl
    (fun (acc : Nat × Nat) node =>
      let is_a := a_edges1.contains node || a_edges2.contains node
      let is_b := b_edges1.contains node || b_edges2.contains node
      let sum := if is_a then acc.1 + acc.2 else acc.1
      let num_b := if is_b then acc.2 + 1 else acc.2
      (sum, num_b))
    (0, 0)).1

/-- Swap the entries at positions `i` and `j` (`Vec::swap`; in-range in
every use below). -/
def listSwap (l : List α) (i j : Nat) : List α :=
  match l.get? i, l.get? j with
  | some a, some b => (l.set i b).set j a
  | _, _ => l

/-- `EdgeCrossOptimizer::perturb_rank` applied to one row:
`row.swap((j * 17) % len, j)` for every `j`. -/
def perturb_row (row : List Nat) : List Nat :=
  let len := row.length
  (List.range len).foldl (fun r j => listSwap r ((j * 17) % len) j) row

/-- `EdgeCrossOptimizer::perturb_rank`. -/
def DAG.perturb_rank (g : DAG) : DAG :=
  { g with ranks := g.ranks.map perturb_row }

/-- `EdgeCrossOptimizer::rotate_rank`: rotate each row left by one
(`rotate_left(1)`; the Rust call aborts on an empty row, which the model
leaves unchanged). -/
def DAG.rotate_rank (g : DAG) : DAG :=
  { g with ranks := g.ranks.map fun r => r.rotate 1 }

/-- `EdgeCrossOptimizer::count_crossing_in_rows(first, second)`. -/
def count_crossing_in_rows (g : DAG) (first second : List Nat) : Nat :=
  if first.length < 2 then 0
  else
    ((List.range first.length).map fun i =>
      ((List.range' (i + 1) (first.length - (i + 1))).map fun j =>
        num_crossing g (first.getD i 0) (first.getD j 0) second).sum).sum

/-- `EdgeCrossOptimizer::count_crossed_edges`: sum the crossings of every
adjacent pair of rows.  (With zero rows the Rust `0..len - 1` range
underflows and aborts in a debug build; here the sum is empty.) -/
def count_crossed_edges (g : DAG) : Nat :=
  ((List.range (g.num_levels - 1)).map fun row_idx =>
    count_crossing_in_rows g (g.row row_idx) (g.row (row_idx + 1))).sum

/-- `EdgeCrossOptimizer::swap_crossed_edges_on_row(row_idx, dir)`: one
left-to-right adjacent-swap improvement pass over a row, against the upper
and/or lower neighbor rows. -/
def swap_crossed_edges_on_row (g : DAG) (row_idx : Nat) (dir : Direction) :
    DAG × Bool :=
  let num_rows := g.num_levels
  let prev_row := if row_idx > 0 ∧ dir.is_up then g.row (row_idx - 1) else []
  let next_row :=
    if row_idx + 1 < num_rows ∧ dir.is_down then g.row (row_idx + 1) else []
  let row := g.row row_idx
  if row.length < 2 then (g, false)
  else
    let acc := (List.range (row.length - 1)).foldl
      (fun (acc : List Nat × Bool) i =>
        let a := acc.1.getD i 0
        let b := acc.1.getD (i + 1) 0
        let ab := num_crossing g a b prev_row + num_crossing g a b next_row
        let ba := num_crossing g b a prev_row + num_crossing g b a next_row
        if ab > ba then (listSwap acc.1 i (i + 1), true) else acc)
      (row, false)
    if acc.2 then ({ g with ranks := g.ranks.set row_idx acc.1 }, true)
    else (g, false)

/-- One row sweep of `swap_crossed_edges`, accumulating the `changed`
flag. -/
def swap_pass_step (dir : Direction) (acc : DAG × Bool) (i : Nat) :
    DAG × Bool :=
  let r := swap_crossed_edges_on_row acc.1 i dir
  (r.1, acc.2 || r.2)

/-- One full sweep of the `while changed` body of
`EdgeCrossOptimizer::swap_crossed_edges`: rows bottom-up when the direction
looks down, then top-down when it looks up. -/
def swap_pass (g : DAG) (dir : Direction) : DAG × Bool :=
  let acc1 :=
    if dir.is_down then
      (List.range g.num_levels).foldl (swap_pass_step dir) (g, false)
    else (g, false)
  if dir.is_up then
    (List.range acc1.1.num_levels).reverse.foldl (swap_pass_step dir) acc1
  else acc1

/-- `EdgeCrossOptimizer::swap_crossed_edges(dir)`: repeat improvement
sweeps until no swap fires.  The Rust `while changed` loop has no
termination guarantee of its own, so the model takes a fuel bound; fuel
exhaustion returns the state reached so far. -/
def swap_crossed_edges (g : DAG) (dir : Direction) : Nat → DAG
  | 0 => g
  | fuel + 1 =>
    let acc2 := swap_pass g dir
    if acc2.2 then swap_crossed_edges acc2.1 dir fuel else acc2.1

/-- One iteration of the 50-round best-of loop in
`EdgeCrossOptimizer::optimize`; the state is the current graph, the best
row snapshot and its crossing count. -/
def round_dir (i : Nat) : Direction :=
  match i % 4 with
  | 0 => .Both
  | 1 => .Up
  | _ => .Down

def optimize_round (fuel : Nat) (acc : DAG × List (List Nat) × Nat)
    (i : Nat) : DAG × List (List Nat) × Nat :=
  let dir := round_dir i
  let g1 := swap_crossed_edges acc.1 dir fuel
  let new_cnt := count_crossed_edges g1
  let best := if new_cnt < acc.2.2 then (g1.ranks, new_cnt) else acc.2
  let g2 := g1.rotate_rank
  let g3 := if i % 10 = 0 then g2.perturb_rank else g2
  (g3, best)

/-- `EdgeCrossOptimizer::optimize`: 50 iterations of perturb-and-improve,
tracking the best row ordering seen, then restore it. -/
def optimize (g : DAG) (fuel : Nat) : DAG :=
  let best_rank := g.ranks
  let best_cnt := count_crossed_edges g
  let res := (List.range 50).foldl (optimize_round fuel)
    (g, best_rank, best_cnt)
  { res.1 with ranks := res.2.1 }

section CrossingProof

private theorem swap_row_preserves (g : DAG) (i : Nat) (dir : Direction) :
    (swap_crossed_edges_on_row g i dir).1.nodes = g.nodes ∧
    (swap_crossed_edges_on_row g i dir).1.levels = g.levels := by
  simp only [swap_crossed_edges_on_row]
  split_ifs <;> exact ⟨rfl, rfl⟩

private theorem foldl_pass_preserves (dir : Direction) (l : List Nat) :
    ∀ acc : DAG × Bool,
      (l.foldl (swap_pass_step dir) acc).1.nodes = acc.1.nodes ∧
      (l.foldl (swap_pass_step dir) acc).1.levels = acc.1.levels := by
  induction l with
  | nil => intro acc; exact ⟨rfl, rfl⟩
  | cons x t ih =>
    intro acc
    rw [List.foldl_cons]
    obtain ⟨h1, h2⟩ := ih (swap_pass_step dir acc x)
    have hs := swap_row_preserves acc.1 x dir
    exact ⟨h1.trans hs.1, h2.trans hs.2⟩

private theorem swap_pass_preserves (g : DAG) (dir : Direction) :
    (swap_pass g dir).1.nodes = g.nodes ∧
    (swap_pass g dir).1.levels = g.levels := by
  simp only [swap_pass]
  constructor
  · split
    · refine (foldl_pass_preserves dir _ _).1.trans ?_
      split
      · exact (foldl_pass_preserves dir _ _).1
      · rfl
    · split
      · exact (foldl_pass_preserves dir _ _).1
      · rfl
  · split
    · refine (foldl_pass_preserves dir _ _).2.trans ?_
      split
      · exact (foldl_pass_preserves dir _ _).2
      · rfl
    · split
      · exact (foldl_pass_preserves dir _ _).2
      · rfl

private theorem swap_preserves (dir : Direction) :
    ∀ (fuel : Nat) (g : DAG),
      (swap_crossed_edges g dir fuel).nodes = g.nodes ∧
      (swap_crossed_edges g dir fuel).levels = g.levels := by
  intro fuel
  induction fuel with
  | zero => intro g; exact ⟨rfl, rfl⟩
  | succ n ih =>
    intro g
    simp only [swap_crossed_edges]
    have hp := swap_pass_preserves g dir
    split
    · obtain ⟨h1, h2⟩ := ih (swap_pass g dir).1
      exact ⟨h1.trans hp.1, h2.trans hp.2⟩
    · exact hp

/-- C2: the global crossing count measured immediately after
`EdgeCrossOptimizer::optimize` returns is at most the count measured at
entry: the loop keeps a `best_rank` snapshot whose count only ever
improves on the entry count, and restores it at the end.  (`optimize` is
only reached with at least one rank row; with zero rows the Rust
`0..len - 1` iteration in `count_crossed_edges` underflows.)  The bound
holds for every fuel given to the inner improvement loop. -/
theorem optimize_crossings_le (g : DAG) (fuel : Nat)
    (hrows : 0 < g.num_levels) :
    count_crossed_edges (optimize g fuel) ≤ count_crossed_edges g := by
  have hinv := List.foldlRecOn (List.range 50) (optimize_round fuel)
    (g, g.ranks, count_crossed_edges g)
    (motive := fun acc =>
      acc.1.nodes = g.nodes ∧ acc.1.levels = g.levels ∧
      acc.2.2 = count_crossed_edges ⟨g.nodes, acc.2.1, g.levels⟩ ∧
      acc.2.2 ≤ count_crossed_edges g)
    ⟨rfl, rfl, rfl, le_refl _⟩
    (by
      intro acc hacc i _
      obtain ⟨hn, hl, hcnt, hle⟩ := hacc
      have hsw := swap_preserves (round_dir i) fuel acc.1
      have hg1n : (swap_crossed_edges acc.1 (round_dir i) fuel).nodes =
          g.nodes := hsw.1.trans hn
      have hg1l : (swap_crossed_edges acc.1 (round_dir i) fuel).levels =
          g.levels := hsw.2.trans hl
      simp only [optimize_round]
      refine ⟨?_, ?_, ?_, ?_⟩
      · split
        · exact hg1n
        · exact hg1n
      · split
        · exact hg1l
        · exact hg1l
      · split
        · have hg1eq : swap_crossed_edges acc.1 (round_dir i) fuel =
              (⟨g.nodes,
                (swap_crossed_edges acc.1 (round_dir i) fuel).ranks,
                g.levels⟩ : DAG) := by
            rw [← hg1n, ← hg1l]
          exact congrArg count_crossed_edges hg1eq
        · exact hcnt
      · split
        · rename_i hlt
          exact le_of_lt (lt_of_lt_of_le hlt hle)
        · exact hle)
  simp only [optimize]
  obtain ⟨hn, hl, hcnt, hle⟩ := hinv
  have heq : ({ ((List.range 50).foldl (optimize_round fuel)
        (g, g.ranks, count_crossed_edges g)).1 with
      ranks := ((List.range 50).foldl (optimize_round fuel)
        (g, g.ranks, count_crossed_edges g)).2.1 } : DAG) =
      ⟨g.nodes, ((List.range 50).foldl (optimize_round fuel)
        (g, g.ranks, count_crossed_edges g)).2.1, g.levels⟩ := by
    rw [← hn, ← hl]
  rw [heq, ← hcnt]
  exact hle

/-- A concrete two-node, two-row DAG with the edge `0 -> 1`, used to
witness the crossing-optimizer bound. -/
def cdagOpt : DAG :=
  { nodes := [⟨[1], []⟩, ⟨[], [0]⟩], ranks := [[0], [1]], levels := [0, 1] }

/-- Witness for C2: the crossing bound applied to `cdagOpt` with one unit
of inner-loop fuel. -/
theorem optimize_crossings_le_witness :
    count_crossed_edges (optimize cdagOpt 1) ≤ count_crossed_edges cdagOpt :=
  optimize_crossings_le cdagOpt 1 (by decide)

end CrossingProof

/-! ## The visual graph (`topo/layout.rs`)

The embedding keeps, for every `Element`, the two fields the layout passes
under verification read: its `Position` and whether its shape is a
`ShapeKind::Connector` (label text, style and orientation never influence
the claims below).  Likewise an edge keeps its path of handles and whether
its arrow still carries label text; arrow heads, ports and styles are
render-only payload. -/

/-- The layout-relevant projection of `Element`. -/
structure Elem where
  pos : Position
  is_conn : Bool
deriving DecidableEq, Repr

instance : Inhabited Elem :=
  ⟨⟨⟨⟨0, 0⟩, ⟨0, 0⟩, ⟨0, 0⟩, ⟨0, 0⟩⟩, false⟩⟩

/-- The layout-relevant projection of one entry of `VisualGraph::edges`:
the arrow label presence and the path of handles `[src, …, dst]`. -/
structure EdgeM where
  has_text : Bool
  path : List Nat
deriving DecidableEq, Repr

/-- The layout-relevant projection of `struct VisualGraph`. -/
structure VisualGraph where
  dag : DAG
  elems : List Elem
  edges : List EdgeM
  self_edges : List Nat
deriving DecidableEq, Repr

namespace VisualGraph

/-- `VisualGraph::num_nodes`. -/
def num_nodes (vg : VisualGraph) : Nat := vg.dag.len

/-- `VisualGraph::pos(n)` (out-of-range handles abort in Rust). -/
def pos (vg : VisualGraph) (n : Nat) : Position :=
  (vg.elems.getD n default).pos

/-- `VisualGraph::is_connector(n)`. -/
def is_connector (vg : VisualGraph) (n : Nat) : Bool :=
  (vg.elems.getD n default).is_conn

/-- Replace the position of node `n` (the effect of a `pos_mut` write). -/
def setPos (vg : VisualGraph) (n : Nat) (p : Position) : VisualGraph :=
  { vg with elems := modifyAt vg.elems n fun e => { e with pos := p } }

end VisualGraph

/-- `align_to_left` (`topo/placer/simple.rs`): find the lowest halo
bounding-box X over all nodes - the running minimum starts at `10000.` -
and translate every node left by it. -/
def align_to_left (vg : VisualGraph) : VisualGraph :=
  let first_x := (List.range vg.num_nodes).foldl
    (fun fx elem => min fx ((vg.pos elem).bbox true).1.x) 10000
  let elems2 := (List.range vg.num_nodes).foldl
    (fun es elem => modifyAt es elem fun e =>
      { e with pos := e.pos.translate ⟨-first_x, 0⟩ })
    vg.elems
  { vg with elems := elems2 }

/-- The leftmost halo bounding-box X over all nodes (`none` for an empty
graph).  This is the quantity the specification asserts is `0` after
normalization. -/
def leftmost_halo_x (vg : VisualGraph) : Option ℚ :=
  match (List.range vg.num_nodes).map (fun n => (vg.pos n).left true) with
  | [] => none
  | x :: t => some (t.foldl min x)

section MinQLemmas

private theorem foldl_min_const_q [LinearOrder α] (t : List α) (m : α)
    (h : ∀ y ∈ t, m ≤ y) : t.foldl min m = m := by
  induction t with
  | nil => rfl
  | cons y ys ih =>
    have hy : m ≤ y := h y (List.mem_cons_self y ys)
    rw [List.foldl_cons, min_eq_left hy]
    exact ih fun z hz => h z (List.mem_cons_of_mem _ hz)

private theorem foldl_min_eq_q [LinearOrder α] (l : List α) (m : α) :
    ∀ s, m ∈ l → (∀ y ∈ l, m ≤ y) → m ≤ s → l.foldl min s = m := by
  induction l with
  | nil =>
    intro s hm
    simp at hm
  | cons x t ih =>
    intro s hm hle hs
    rw [List.foldl_cons]
    by_cases hmt : m ∈ t
    · exact ih (min s x) hmt (fun y hy => hle y (List.mem_cons_of_mem _ hy))
        (le_min hs (hle x (List.mem_cons_self x t)))
    · have hx : m = x := by
        rcases List.mem_cons.mp hm with h | h
        · exact h
        · exact absurd h hmt
      rw [← hx, min_eq_right hs]
      exact foldl_min_const_q t m fun y hy => hle y (List.mem_cons_of_mem _ hy)

private theorem exists_list_min_q [LinearOrder α] (l : List α) (h : l ≠ []) :
    ∃ m ∈ l, ∀ y ∈ l, m ≤ y := by
  induction l with
  | nil => exact absurd rfl h
  | cons x t ih =>
    cases t with
    | nil =>
      refine ⟨x, List.mem_cons_self x [], ?_⟩
      intro y hy
      rcases List.mem_cons.mp hy with h1 | h1
      · exact le_of_eq h1.symm
      · simp at h1
    | cons z zs =>
      obtain ⟨m, hm, hle⟩ := ih (by simp)
      by_cases hxm : x ≤ m
      · refine ⟨x, List.mem_cons_self _ _, ?_⟩
        intro y hy
        rcases List.mem_cons.mp hy with h1 | h1
        · exact le_of_eq h1.symm
        · exact le_trans hxm (hle y h1)
      · refine ⟨m, List.mem_cons_of_mem _ hm, ?_⟩
        intro y hy
        rcases List.mem_cons.mp hy with h1 | h1
        · rw [h1]
          exact le_of_lt (lt_of_not_le hxm)
        · exact hle y h1

private theorem foldl_min_head_q [LinearOrder α] (x : α) (t : List α) (m : α)
    (hm : m ∈ x :: t) (hle : ∀ y ∈ x :: t, m ≤ y) : t.foldl min x = m := by
  by_cases hmt : m ∈ t
  · exact foldl_min_eq_q t m x hmt
      (fun y hy => hle y (List.mem_cons_of_mem _ hy))
      (hle x (List.mem_cons_self x t))
  · have hx : m = x := by
      rcases List.mem_cons.mp hm with h | h
      · exact h
      · exact absurd h hmt
    rw [← hx]
    exact foldl_min_const_q t m fun y hy => hle y (List.mem_cons_of_mem _ hy)

private theorem foldl_min_map_q (f : Nat → ℚ) (l : List Nat) :
    ∀ s, l.foldl (fun fx e => min fx (f e)) s = (l.map f).foldl min s := by
  induction l with
  | nil => intro s; rfl
  | cons x t ih =>
    intro s
    rw [List.foldl_cons, List.map_cons, List.foldl_cons, ih]

private theorem foldl_modify_range {α : Type} (f : α → α) (d : α) :
    ∀ (n : Nat) (es : List α) (k : Nat),
      (((List.range n).foldl (fun es i => modifyAt es i f) es).getD k d) =
        if k < n ∧ k < es.length then f (es.getD k d) else es.getD k d := by
  intro n
  induction n with
  | zero =>
    intro es k
    simp
  | succ n ih =>
    intro es k
    rw [List.range_succ, List.foldl_append, List.foldl_cons, List.foldl_nil]
    have hlen : ((List.range n).foldl (fun es i => modifyAt es i f) es).length
        = es.length := by
      induction (List.range n) generalizing es with
      | nil => rfl
      | cons y ys ihl => rw [List.foldl_cons, ihl, modifyAt_length]
    by_cases hk : k = n
    · subst hk
      by_cases hkl : k < es.length
      · rw [modifyAt_getD_self _ _ _ _ (by rw [hlen]; exact hkl), ih es k,
          if_neg (by omega), if_pos ⟨by omega, hkl⟩]
      · rw [modifyAt_oob _ _ _ (by rw [hlen]; omega), ih es k,
          if_neg (by omega), if_neg (by omega)]
    · rw [modifyAt_getD_other _ _ _ _ _ hk, ih es k]
      by_cases hkn : k < n ∧ k < es.length
      · rw [if_pos hkn, if_pos ⟨by omega, hkn.2⟩]
      · rw [if_neg hkn, if_neg (by omega)]

end MinQLemmas

/-- Left halo edge after a translation. -/
private theorem left_translate (p : Position) (dd : Point) :
    (p.translate dd).left true = p.left true + dd.x := by
  simp only [Position.left, Position.bbox, Position.translate, Position.sizeW,
    Point.sub, Point.add, Point.neg, Point.scale]
  ring

/-- The concrete single-node graph refuting C4: its only node sits at
`x = 20000`, beyond the `10000.` start of the running minimum in
`align_to_left`, so the drawing is translated by only `10000`. -/
def cvgAlign : VisualGraph :=
  { dag := { nodes := [⟨[], []⟩], ranks := [[0]], levels := [0] }
    elems := [⟨⟨⟨20000, 0⟩, ⟨2, 2⟩, ⟨0, 0⟩, ⟨0, 0⟩⟩, false⟩]
    edges := []
    self_edges := [] }

/-- Counterexample for C4: after `align_to_left` on the non-empty graph
`cvgAlign`, the leftmost halo X is `9999`, not `0` - the claim fails for
graphs lying entirely to the right of `x = 10000` because the running
minimum of `align_to_left` starts at `10000.`. -/
theorem align_to_left_leftmost_not_zero :
    leftmost_halo_x (align_to_left cvgAlign) = some 9999 ∧
    leftmost_halo_x (align_to_left cvgAlign) ≠ some 0 := by
  constructor
  · decide
  · decide

/-- C4 (amended): for every non-empty `VisualGraph` whose element vector is
in lock-step with the DAG handles and which has at least one node whose
halo bounding box starts at or left of `x = 10000`, the minimum over all
nodes of the left halo edge equals `0` after `align_to_left` returns.
(Without the `10000` proviso the translation is capped by the `10000.`
initializer of the running minimum and the property fails.) -/
theorem align_to_left_leftmost_zero (vg : VisualGraph)
    (hlock : vg.elems.length = vg.num_nodes)
    (hne : 0 < vg.num_nodes)
    (hsmall : ∃ k, k < vg.num_nodes ∧ (vg.pos k).left true ≤ 10000) :
    leftmost_halo_x (align_to_left vg) = some 0 := by
  obtain ⟨k0, hk0, hk0le⟩ := hsmall
  -- The list of halo-left coordinates before normalization.
  set L : List ℚ := (List.range vg.num_nodes).map
    (fun n => (vg.pos n).left true) with hL
  have hLne : L ≠ [] := by
    rw [hL]
    intro he
    have := List.map_eq_nil_iff.mp he
    rw [List.range_eq_nil] at this
    omega
  obtain ⟨m, hmem, hmle⟩ := exists_list_min_q L hLne
  have hm10 : m ≤ 10000 := by
    refine le_trans (hmle ((vg.pos k0).left true) ?_) hk0le
    rw [hL]
    exact List.mem_map.mpr ⟨k0, List.mem_range.mpr hk0, rfl⟩
  -- The running minimum computed by the first loop.
  have hfirst : (List.range vg.num_nodes).foldl
      (fun fx elem => min fx ((vg.pos elem).bbox true).1.x) 10000 = m := by
    rw [foldl_min_map_q (fun n => ((vg.pos n).bbox true).1.x) _ 10000]
    exact foldl_min_eq_q _ m 10000 hmem hmle hm10
  -- Every node is translated by exactly `-m`.
  have hpos2 : ∀ n, n < vg.num_nodes →
      (align_to_left vg).pos n = (vg.pos n).translate ⟨-m, 0⟩ := by
    intro n hn
    simp only [align_to_left, hfirst]
    simp only [VisualGraph.pos]
    rw [foldl_modify_range _ _ vg.num_nodes vg.elems n,
      if_pos ⟨hn, by omega⟩]
  have hnum : (align_to_left vg).num_nodes = vg.num_nodes := rfl
  -- The halo-left list after normalization is `L` shifted by `-m`.
  have hL2 : (List.range vg.num_nodes).map
      (fun n => ((align_to_left vg).pos n).left true) =
      L.map (fun v => v + -m) := by
    rw [hL, List.map_map]
    refine List.map_congr_left ?_
    intro n hn
    show ((align_to_left vg).pos n).left true = (vg.pos n).left true + -m
    rw [hpos2 n (List.mem_range.mp hn), left_translate]
  -- Conclude via the minimum of the shifted list.
  unfold leftmost_halo_x
  rw [hnum, hL2]
  cases hLcase : L with
  | nil => exact absurd hLcase hLne
  | cons x t =>
    simp only [List.map_cons]
    have hzero : (0 : ℚ) ∈ (x + -m) :: t.map (fun v => v + -m) := by
      have : m ∈ x :: t := by rw [← hLcase]; exact hmem
      rcases List.mem_cons.mp this with h | h
      · rw [← h]
        simp
      · refine List.mem_cons_of_mem _ ?_
        refine List.mem_map.mpr ⟨m, h, by ring⟩
    have hge : ∀ y ∈ (x + -m) :: t.map (fun v => v + -m), (0 : ℚ) ≤ y := by
      intro y hy
      rcases List.mem_cons.mp hy with h | h
      · have : m ≤ x := by
          refine hmle x ?_
          rw [hLcase]
          exact List.mem_cons_self x t
        rw [h]
        linarith
      · obtain ⟨v, hv, hveq⟩ := List.mem_map.mp h
        have : m ≤ v := by
          refine hmle v ?_
          rw [hLcase]
          exact List.mem_cons_of_mem _ hv
        rw [← hveq]
        linarith
    rw [foldl_min_head_q (x + -m) (t.map fun v => v + -m) 0 hzero hge]

/-- A concrete two-node graph with coordinates below the `10000` cap. -/
def cvgWitness : VisualGraph :=
  { dag := { nodes := [⟨[1], []⟩, ⟨[], [0]⟩], ranks := [[0], [1]]
             levels := [0, 1] }
    elems := [⟨⟨⟨5, 1⟩, ⟨2, 2⟩, ⟨0, 0⟩, ⟨1, 1⟩⟩, false⟩,
      ⟨⟨⟨7, 4⟩, ⟨2, 2⟩, ⟨0, 0⟩, ⟨1, 1⟩⟩, false⟩]
    edges := [⟨false, [0, 1]⟩]
    self_edges := [] }

/-- Witness for C4 (amended): the amended normalization property holds on
a concrete two-node graph with coordinates below the `10000` cap. -/
theorem align_to_left_leftmost_zero_witness :
    leftmost_halo_x (align_to_left cvgWitness) = some 0 :=
  align_to_left_leftmost_zero cvgWitness (by decide) (by decide)
    ⟨0, by decide, by decide⟩

/-! ## Brandes-Koepf placer (`topo/placer/bk.rs`)

The scheduler frontier `last_x_for_row` genuinely uses the two `f64`
infinities as sentinels, so those coordinates are modelled by the fragment
`F64` below; all other geometry stays in `ℚ`. -/

/-- Finite `f64` values plus the two infinities used as scheduler
sentinels.  None of the operations modelled here can produce a NaN on the
values the placer feeds them (the mixed-infinity sums are marked). -/
inductive F64 where
  | NegInf
  | Fin (q : ℚ)
  | PosInf
deriving DecidableEq, Repr

namespace F64

/-- `x + q` for finite `q`. -/
def addQ : F64 → ℚ → F64
  | .NegInf, _ => .NegInf
  | .Fin v, q => .Fin (v + q)
  | .PosInf, _ => .PosInf

/-- `x - q` for finite `q`. -/
def subQ : F64 → ℚ → F64
  | .NegInf, _ => .NegInf
  | .Fin v, q => .Fin (v - q)
  | .PosInf, _ => .PosInf

/-- `f64::max`. -/
def maxF : F64 → F64 → F64
  | .NegInf, y => y
  | .PosInf, _ => .PosInf
  | .Fin v, .NegInf => .Fin v
  | .Fin _, .PosInf => .PosInf
  | .Fin v, .Fin w => .Fin (max v w)

/-- `f64::min`. -/
def minF : F64 → F64 → F64
  | .PosInf, y => y
  | .NegInf, _ => .NegInf
  | .Fin v, .PosInf => .Fin v
  | .Fin _, .NegInf => .NegInf
  | .Fin v, .Fin w => .Fin (min v w)

/-- `x + y` (the mixed-infinity case is an IEEE NaN; it is unreachable for
the scheduler outputs being summed, which are all finite). -/
def addF : F64 → F64 → F64
  | .Fin a, .Fin b => .Fin (a + b)
  | .NegInf, .PosInf => .Fin 0
  | .PosInf, .NegInf => .Fin 0
  | .NegInf, _ => .NegInf
  | _, .NegInf => .NegInf
  | .PosInf, _ => .PosInf
  | _, .PosInf => .PosInf

/-- `x / c` for a positive finite constant. -/
def divQ : F64 → ℚ → F64
  | .NegInf, _ => .NegInf
  | .Fin v, c => .Fin (v / c)
  | .PosInf, _ => .PosInf

/-- Extract the finite value (`0` for the infinities; every coordinate the
averaging loop stores is finite in the runs under verification). -/
def toRat : F64 → ℚ
  | .NegInf => 0
  | .Fin v => v
  | .PosInf => 0

end F64

/-- `enum OrderLR` (`bk.rs`). -/
inductive OrderLR where
  | LeftToRight
  | RightToLeft
deriving DecidableEq, Repr

/-- `OrderLR::is_left_to_right`. -/
def OrderLR.is_left_to_right : OrderLR → Bool
  | .LeftToRight => true
  | .RightToLeft => false

/-- Insertion of one element into a sorted list (ascending). -/
def insertSorted (x : ℚ) : List ℚ → List ℚ
  | [] => [x]
  | y :: t => if x ≤ y then x :: y :: t else y :: insertSorted x t

/-- Ascending sort (`vec.sort_by(partial_cmp)`), realized as insertion
sort; only the sorted order matters to the median. -/
def sortQ (l : List ℚ) : List ℚ := l.foldr insertSorted []

/-- `weighted_median(vec)` (`core/geometry.rs`): the median element,
averaging the two central elements for even lengths, with the `n = 2` case
written out as in the source.  The empty input asserts in Rust; callers
guard it, and the model returns `0` there. -/
def weighted_median (vec : List ℚ) : ℚ :=
  let v := sortQ vec
  if v.length = 1 then v.getD 0 0
  else if v.length = 2 then (v.getD 0 0 + v.getD 1 0) / 2
  else
    let mid := v.length / 2
    if v.length % 2 = 1 then v.getD mid 0
    else (v.getD mid 0 + v.getD (mid - 1) 0) / 2

/-- `BK::are_edges_crossing(edge_a, edge_b)`: two inter-row edges given by
their row indices cross unless they are strictly ordered on both rows. -/
def are_edges_crossing (edge_a edge_b : Nat × Nat) : Bool :=
  let before := edge_a.1 < edge_b.1 ∧ edge_a.2 < edge_b.2
  let after := edge_a.1 > edge_b.1 ∧ edge_a.2 > edge_b.2
  !(decide before) && !(decide after)

/-- `BK::extract_edges_with_no_type2_conflict(r0, r1)`.  The labelled
continue keeps a regular edge only when every strong
(connector-to-connector) edge crosses it: the inner loop skips each
crossing strong edge and abandons the regular edge at the first
non-crossing one (so with no strong edges every regular edge is kept
vacuously).  The strong edges themselves are always kept. -/
def extract_edges_with_no_type2_conflict (vg : VisualGraph)
    (r0 r1 : List Nat) : List (Nat × Nat) :=
  let classified := r0.enum.foldl
    (fun (acc : List (Nat × Nat) × List (Nat × Nat)) p =>
      (vg.dag.successors p.2).foldl
        (fun acc succ =>
          match r1.indexOf? succ with
          | none => acc
          | some idx1 =>
            if vg.is_connector p.2 && vg.is_connector succ then
              (acc.1, acc.2 ++ [(p.1, idx1)])
            else (acc.1 ++ [(p.1, idx1)], acc.2))
        acc)
    ([], [])
  let regular_edges := classified.1
  let strong_edges := classified.2
  let res := (regular_edges.filter fun reg =>
    strong_edges.all fun strong => are_edges_crossing reg strong).map
    fun reg => (r0.getD reg.1 0, r1.getD reg.2 0)
  res ++ strong_edges.map fun strong => (r0.getD strong.1 0, r1.getD strong.2 0)

/-- `BK::get_valid_edges`: union over every adjacent row pair.  (The Rust
`HashSet` is only queried through `contains`, so a list with the same
members is an equivalent model.) -/
def get_valid_edges (vg : VisualGraph) : List (Nat × Nat) :=
  (List.range (vg.dag.num_levels - 1)).foldl
    (fun acc i =>
      acc ++ extract_edges_with_no_type2_conflict vg (vg.dag.row i)
        (vg.dag.row (i + 1)))
    []

/-- `BK::get_pred_medians(valid_edges)`: for every node, the weighted
median of the X centers of its valid predecessors, or `0` if none. -/
def get_pred_medians (vg : VisualGraph) (valid_edges : List (Nat × Nat)) :
    List ℚ :=
  (List.range vg.num_nodes).map fun node =>
    let pos_list := ((vg.dag.predecessors node).filter
      fun pred => valid_edges.contains (pred, node)).map
      fun pred => (vg.pos pred).centerAbs.x
    if pos_list.isEmpty then 0 else weighted_median pos_list

/-- `struct NodeAttachInfo`: per-node up and down alignment links. -/
structure NodeAttachInfo where
  above : List (Option Nat)
  below : List (Option Nat)
deriving DecidableEq, Repr

namespace NodeAttachInfo

/-- `NodeAttachInfo::new(size)`. -/
def new (size : Nat) : NodeAttachInfo :=
  ⟨List.replicate size none, List.replicate size none⟩

/-- `NodeAttachInfo::add(from, to)`; the two `assert!`s that the slots are
free are the `none` cases. -/
def add (ai : NodeAttachInfo) (fr dst : Nat) : Option NodeAttachInfo :=
  if (ai.below.getD dst none).isSome then none
  else if (ai.above.getD fr none).isSome then none
  else some ⟨ai.above.set fr (some dst), ai.below.set dst (some fr)⟩

/-- The `while self.below[idx].is_some()` chase down to the bottom of a
vertical.  A cycle in the attach info makes the Rust loop spin forever;
with fuel `size + 1` the model returns `none` exactly in that case. -/
def chase_below (ai : NodeAttachInfo) : Nat → Nat → Option Nat
  | 0, _ => none
  | fuel + 1, idx =>
    match ai.below.getD idx none with
    | none => some idx
    | some nxt => chase_below ai fuel nxt

/-- The upward walk collecting a vertical while marking nodes used; it
always terminates within `size + 1` steps because every step marks one
more node used. -/
def walk_up (ai : NodeAttachInfo) : Nat → List Bool → Nat →
    List Nat × List Bool
  | 0, used, idx => ([], used.set idx true)
  | fuel + 1, used, idx =>
    match ai.above.getD idx none with
    | some nxt =>
      if used.getD idx false then ([], used.set idx true)
      else
        let used1 := used.set idx true
        let res := walk_up ai fuel used1 nxt
        (nxt :: res.1, res.2)
    | none => ([], used.set idx true)

/-- `NodeAttachInfo::get_verticals`. -/
def get_verticals (ai : NodeAttachInfo) : Option (List (List Nat)) := do
  let res ← (List.range ai.above.length).foldlM
    (fun (st : List (List Nat) × List Bool) i => do
      if st.2.getD i false then pure st
      else
        let bottom ← chase_below ai (ai.below.length + 1) i
        let walked := walk_up ai (ai.above.length + 1) st.2 bottom
        pure (st.1 ++ [bottom :: walked.1], walked.2))
    ([], List.replicate ai.above.length false)
  pure res.1

end NodeAttachInfo

/-- Mark `used[0..=idx]` (the monotone cursor update in
`BK::compute_alignment`). -/
def markUsedUpTo (used : List Bool) (idx : Nat) : List Bool :=
  (List.range (idx + 1)).foldl (fun u j => u.set j true) used

/-- `BK::compute_alignment(order)`: for every adjacent row pair, link each
node of the lower row to the closest unused admissible predecessor, where
closeness is measured against the weighted median of valid-predecessor
X centers. -/
def compute_alignment (vg : VisualGraph) (order : OrderLR) :
    Option NodeAttachInfo := do
  let valid_edges := get_valid_edges vg
  let medians := get_pred_medians vg valid_edges
  (List.range (vg.dag.num_levels - 1)).foldlM
    (fun ai i => do
      let r0i := vg.dag.row i
      let r1i := vg.dag.row (i + 1)
      -- Simulate searching from the right by reversing both rows.
      let r0 := if order.is_left_to_right then r0i else r0i.reverse
      let r1 := if order.is_left_to_right then r1i else r1i.reverse
      let res ← r1.foldlM
        (fun (st : NodeAttachInfo × List Bool) node => do
          let node_x := medians.getD node 0
          let best := (vg.dag.predecessors node).foldl
            (fun (best : Option (Nat × ℚ)) pred =>
              match r0.indexOf? pred with
              | none => best
              | some idx =>
                if st.2.getD idx false then best
                else
                  let delta := |(vg.pos pred).centerAbs.x - node_x|
                  match best with
                  | none => some (idx, delta)
                  | some b => if delta < b.2 then some (idx, delta) else best)
            none
          match best with
          | none => pure st
          | some b => do
            let used := markUsedUpTo st.2 b.1
            let ai2 ← st.1.add node (r0.getD b.1 0)
            pure (ai2, used))
        (ai, List.replicate r0.length false)
      pure res.1)
    (NodeAttachInfo.new vg.num_nodes)

/-- `struct Scheduler` (without the borrowed graph, which is passed to
each operation). -/
structure Scheduler where
  vl : List (List Nat)
  x_coordinates : List F64
  sched_idx : List Nat
  last_x_for_row : List F64
  order : OrderLR
deriving DecidableEq, Repr

namespace Scheduler

/-- `Scheduler::new(vg, vl, order)`. -/
def new (vg : VisualGraph) (vl : List (List Nat)) (order : OrderLR) :
    Scheduler :=
  let v : F64 := if order.is_left_to_right then .NegInf else .PosInf
  { vl := vl
    x_coordinates := List.replicate vg.num_nodes (.Fin 0)
    sched_idx := List.replicate vg.dag.num_levels 0
    last_x_for_row := List.replicate vg.dag.num_levels v
    order := order }

/-- `Scheduler::verify_vertical(v)` as a boolean: consecutive members must
sit on consecutive levels going up (the Rust assertion). -/
def verify_vertical (vg : VisualGraph) (v : List Nat) : Bool :=
  (v.enum.foldl
    (fun (acc : Nat × Bool) p =>
      let level := vg.dag.level p.2
      let ok := if p.1 ≠ 0 then acc.2 && decide (level + 1 = acc.1) else acc.2
      (level, ok))
    (0, true)).2

/-- `Scheduler::first_schedule_x(v)`: the first feasible placement X of a
vertical against the current row frontiers (out-of-range levels abort in
Rust). -/
def first_schedule_x (vg : VisualGraph) (sc : Scheduler) (v : List Nat) :
    F64 :=
  v.foldl
    (fun last_offset_x elem =>
      let level := vg.dag.level elem
      let last := sc.last_x_for_row.getD level (.Fin 0)
      let p := vg.pos elem
      if sc.order.is_left_to_right then
        last_offset_x.maxF (last.addQ (p.distance_to_left true))
      else
        last_offset_x.minF (last.subQ (p.distance_to_right true)))
    (.Fin 0)

/-- `Scheduler::place_vertical(v, center_x)`. -/
def place_vertical (vg : VisualGraph) (sc : Scheduler) (v : List Nat)
    (center_x : F64) : Scheduler :=
  v.foldl
    (fun sc elem =>
      let sc1 : Scheduler :=
        { sc with x_coordinates := sc.x_coordinates.set elem center_x }
      let level := vg.dag.level elem
      let p := vg.pos elem
      let frontier :=
        if sc1.order.is_left_to_right then
          sc1.last_x_for_row.set level
            (center_x.addQ (p.distance_to_right true))
        else
          sc1.last_x_for_row.set level
            (center_x.subQ (p.distance_to_left true))
      let sc2 : Scheduler := { sc1 with last_x_for_row := frontier }
      let idx := sc2.sched_idx.set level (sc2.sched_idx.getD level 0 + 1)
      { sc2 with sched_idx := idx })
    sc

/-- `Scheduler::is_next_avail_in_row(node, row_idx)`. -/
def is_next_avail_in_row (vg : VisualGraph) (sc : Scheduler) (node : Nat)
    (row_idx : Nat) : Bool :=
  let row := vg.dag.row row_idx
  let first_free := sc.sched_idx.getD row_idx 0
  let len := row.length
  if first_free < len then
    if sc.order.is_left_to_right then decide (row.getD first_free 0 = node)
    else decide (row.getD (len - first_free - 1) 0 = node)
  else false

/-- `Scheduler::is_vertical_ready(idx)`. -/
def is_vertical_ready (vg : VisualGraph) (sc : Scheduler) (idx : Nat) :
    Bool :=
  let vert := sc.vl.getD idx []
  if vert.isEmpty then false
  else vert.all fun node => is_next_avail_in_row vg sc node (vg.dag.level node)

/-- One `for i in 0..self.vl.len()` sweep of `Scheduler::schedule`: place
every ready vertical (the Rust source calls `place_vertical` identically
on both sides of its `if`) and wipe it. -/
def schedule_pass (vg : VisualGraph) (st : Scheduler × Nat) :
    Scheduler × Nat :=
  (List.range st.1.vl.length).foldl
    (fun (st : Scheduler × Nat) i =>
      if is_vertical_ready vg st.1 i then
        let v := st.1.vl.getD i []
        let x := first_schedule_x vg st.1 v
        let sc := place_vertical vg st.1 v x
        let sc2 : Scheduler := { sc with vl := sc.vl.set i [] }
        (sc2, st.2 - 1)
      else st)
    st

/-- The `while to_place > 0` loop of `Scheduler::schedule`.  When no
vertical is ready the Rust loop spins forever; the fuel makes that case
return `none`. -/
def schedule_loop (vg : VisualGraph) : Nat → Scheduler × Nat →
    Option Scheduler
  | 0, _ => none
  | fuel + 1, st =>
    if st.2 = 0 then some st.1
    else schedule_loop vg fuel (schedule_pass vg st)

/-- `Scheduler::schedule`: verify the verticals (the assertion is the
`none` case), then place until done.  `vl.length + 1` rounds suffice for
every terminating run because each round either places a vertical or
repeats forever. -/
def schedule (vg : VisualGraph) (sc : Scheduler) : Option Scheduler := do
  if sc.vl.all (verify_vertical vg) then
    schedule_loop vg (sc.vl.length + 1) (sc, sc.vl.length)
  else none

end Scheduler

namespace BK

/-- The X placement computed by one alignment/scheduling variant of
`BK::do_it`: compute the alignment with `alignOrder`, extract the
verticals, and schedule them with `schedOrder`. -/
def variant_xs (vg : VisualGraph) (alignOrder schedOrder : OrderLR) :
    Option (List F64) := do
  let ai ← compute_alignment vg alignOrder
  let vl ← ai.get_verticals
  let sc ← Scheduler.schedule vg (Scheduler.new vg vl schedOrder)
  pure sc.x_coordinates

/-- The averaging loop at the end of `BK::do_it`:
`val = (xs0[i] + xs1[i] + xs2[i] + xs3[i]) / 4.0; pos_mut(i).set_x(val)`.
(`toRat` extracts the finite value; the scheduler only ever stores finite
coordinates.) -/
def average_x (vg : VisualGraph) (xs0 xs1 xs2 xs3 : List F64) :
    VisualGraph :=
  (List.range xs0.length).foldl
    (fun v i =>
      let val := (((xs0.getD i (.Fin 0)).addF (xs1.getD i (.Fin 0))).addF
        (xs2.getD i (.Fin 0))).addF (xs3.getD i (.Fin 0)) |>.divQ 4
      { v with elems := modifyAt v.elems i fun e =>
          { e with pos := e.pos.set_x val.toRat } })
    vg

/-- `BK::do_it`: run the four alignment x scheduling variants, assign each
node the mean of its four X coordinates, then left-normalize. -/
def do_it (vg : VisualGraph) : Option VisualGraph := do
  let xs0 ← variant_xs vg .RightToLeft .RightToLeft
  let xs1 ← variant_xs vg .RightToLeft .LeftToRight
  let xs2 ← variant_xs vg .LeftToRight .RightToLeft
  let xs3 ← variant_xs vg .LeftToRight .LeftToRight
  pure (align_to_left (average_x vg xs0 xs1 xs2 xs3))

end BK

private theorem foldl_modify_range_dep {α : Type} (f : Nat → α → α) (d : α) :
    ∀ (n : Nat) (es : List α) (k : Nat),
      (((List.range n).foldl (fun es i => modifyAt es i (f i)) es).getD k d) =
        if k < n ∧ k < es.length then f k (es.getD k d) else es.getD k d := by
  intro n
  induction n with
  | zero =>
    intro es k
    simp
  | succ n ih =>
    intro es k
    rw [List.range_succ, List.foldl_append, List.foldl_cons, List.foldl_nil]
    have hlen : ((List.range n).foldl (fun es i => modifyAt es i (f i)) es).length
        = es.length := by
      induction (List.range n) generalizing es with
      | nil => rfl
      | cons y ys ihl => rw [List.foldl_cons, ihl, modifyAt_length]
    by_cases hk : k = n
    · subst hk
      by_cases hkl : k < es.length
      · rw [modifyAt_getD_self _ _ _ _ (by rw [hlen]; exact hkl), ih es k,
          if_neg (by omega), if_pos ⟨by omega, hkl⟩]
      · rw [modifyAt_oob _ _ _ (by rw [hlen]; omega), ih es k,
          if_neg (by omega), if_neg (by omega)]
    · rw [modifyAt_getD_other _ _ _ _ _ hk, ih es k]
      by_cases hkn : k < n ∧ k < es.length
      · rw [if_pos hkn, if_pos ⟨by omega, hkn.2⟩]
      · rw [if_neg hkn, if_neg (by omega)]

private theorem elems_foldl_modify (f : Nat → Elem → Elem) :
    ∀ (l : List Nat) (vg : VisualGraph),
      (l.foldl (fun v i => { v with elems := modifyAt v.elems i (f i) })
          vg).elems =
        l.foldl (fun es i => modifyAt es i (f i)) vg.elems := by
  intro l
  induction l with
  | nil => intro vg; rfl
  | cons y ys ih => intro vg; rw [List.foldl_cons, List.foldl_cons, ih]

/-- The absolute center X after `set_x`. -/
private theorem centerAbs_set_x (p : Position) (x : ℚ) :
    (p.set_x x).centerAbs.x = x := by
  simp only [Position.set_x, Position.centerAbs, Point.add]
  ring

/-- C3: in `BK::do_it`, before the final left-normalization (the state
produced by the averaging loop `average_x`, to which `do_it` then applies
`align_to_left`), the center X assigned to every node equals the
arithmetic mean of the four X coordinates computed for it by the four
alignment/scheduling variants (alignment scan direction x schedule scan
direction). -/
theorem bk_mean_of_four_variants (vg : VisualGraph)
    (xs0 xs1 xs2 xs3 : List F64)
    (h0 : BK.variant_xs vg .RightToLeft .RightToLeft = some xs0)
    (h1 : BK.variant_xs vg .RightToLeft .LeftToRight = some xs1)
    (h2 : BK.variant_xs vg .LeftToRight .RightToLeft = some xs2)
    (h3 : BK.variant_xs vg .LeftToRight .LeftToRight = some xs3)
    (i : Nat) (hi : i < xs0.length) (hiel : i < vg.elems.length)
    (q0 q1 q2 q3 : ℚ)
    (hq0 : xs0.getD i (.Fin 0) = .Fin q0)
    (hq1 : xs1.getD i (.Fin 0) = .Fin q1)
    (hq2 : xs2.getD i (.Fin 0) = .Fin q2)
    (hq3 : xs3.getD i (.Fin 0) = .Fin q3) :
    ((BK.average_x vg xs0 xs1 xs2 xs3).pos i).centerAbs.x =
      (q0 + q1 + q2 + q3) / 4 ∧
    BK.do_it vg =
      some (align_to_left (BK.average_x vg xs0 xs1 xs2 xs3)) := by
  constructor
  · simp only [BK.average_x, VisualGraph.pos]
    rw [elems_foldl_modify, foldl_modify_range_dep _ _ xs0.length vg.elems i,
      if_pos ⟨hi, hiel⟩]
    show ((vg.elems.getD i default).pos.set_x _).centerAbs.x = _
    rw [centerAbs_set_x, hq0, hq1, hq2, hq3]
    rfl
  · rw [BK.do_it, h0, h1, h2, h3]
    rfl

/-- A two-node, two-level graph with one edge, used to exercise the full
BK pipeline concretely. -/
def cvgBK : VisualGraph :=
  { dag := { nodes := [⟨[1], []⟩, ⟨[], [0]⟩], ranks := [[0], [1]]
             levels := [0, 1] }
    elems := [⟨⟨⟨5, 1⟩, ⟨2, 2⟩, ⟨0, 0⟩, ⟨1, 1⟩⟩, false⟩,
      ⟨⟨⟨7, 4⟩, ⟨2, 2⟩, ⟨0, 0⟩, ⟨1, 1⟩⟩, false⟩]
    edges := [⟨false, [0, 1]⟩]
    self_edges := [] }

/-- Witness for C3: on `cvgBK` all four variants produce X coordinate `0`
for node `0`, and the averaged center X is `(0 + 0 + 0 + 0) / 4`. -/
theorem bk_mean_of_four_variants_witness :
    ((BK.average_x cvgBK [.Fin 0, .Fin 0] [.Fin 0, .Fin 0] [.Fin 0, .Fin 0]
        [.Fin 0, .Fin 0]).pos 0).centerAbs.x = (0 + 0 + 0 + 0) / 4 ∧
    BK.do_it cvgBK = some (align_to_left (BK.average_x cvgBK
      [.Fin 0, .Fin 0] [.Fin 0, .Fin 0] [.Fin 0, .Fin 0]
      [.Fin 0, .Fin 0])) :=
  bk_mean_of_four_variants cvgBK _ _ _ _ (by decide) (by decide) (by decide)
    (by decide) 0 (by decide) (by decide) 0 0 0 0 rfl rfl rfl rfl

/-! ### The edge fixer (`topo/placer/edge_fixer.rs`)

`compute_bounds_for_node` initializes its bounds with the two `f64`
infinities, so the bounds are `F64` pairs here. -/

/-- `a <= b` on `f64` values extended with the infinities. -/
def F64.leF : F64 → F64 → Bool
  | .NegInf, _ => true
  | _, .PosInf => true
  | .Fin a, .Fin b => decide (a ≤ b)
  | .PosInf, _ => false
  | _, .NegInf => false

/-- `in_range(range, x)` applied to the possibly-infinite bounds produced
by `compute_bounds_for_node`. -/
def in_rangeF (range : F64 × F64) (x : ℚ) : Bool :=
  range.1.leF (.Fin x) && (F64.Fin x).leF range.2

/-- `compute_bounds_for_node(vg, node)`: leftmost and rightmost X available
to `node` between its row neighbors.  `none` models the panics: the empty
row assert, the `position(..).unwrap()` when the node is missing from its
row, and the two `loc.x` asserts. -/
def compute_bounds_for_node (vg : VisualGraph) (node : Nat) :
    Option (F64 × F64) :=
  let row := vg.dag.row (vg.dag.level node)
  if row.isEmpty then none
  else
    match row.findIdx? (fun x => x = node) with
    | none => none
    | some idx =>
      let leftmost : F64 :=
        if 0 < idx then .Fin ((vg.pos (row.getD (idx - 1) 0)).right true)
        else .NegInf
      let rightmost : F64 :=
        if idx < row.length - 1 then
          .Fin ((vg.pos (row.getD (idx + 1) 0)).left true)
        else .PosInf
      let loc := (vg.pos node).centerAbs
      if leftmost.leF (.Fin loc.x) && (F64.Fin loc.x).leF rightmost then
        some (leftmost, rightmost)
      else none

/-- The first phase of `straighten_edge`: collect, in visiting order, the
connectors of the inner rows (`1..num_levels-1`, empty when there are
fewer than three rows) whose single predecessor and single successor are
both non-connectors and whose direct pred-succ segment intersects no
(halo-free) box of the connector row. -/
def straighten_candidates (vg : VisualGraph) : List Nat :=
  (List.range' 1 (vg.dag.num_levels - 2)).foldl
    (fun acc row_idx =>
      let row := vg.dag.row row_idx
      row.foldl
        (fun acc elem =>
          if !vg.is_connector elem then acc
          else
            match vg.dag.single_pred elem, vg.dag.single_succ elem with
            | some pred, some succ =>
              if vg.is_connector pred || vg.is_connector succ then acc
              else
                let p1 := (vg.pos pred).centerAbs
                let p2 := (vg.pos succ).centerAbs
                if row.any fun e =>
                    segment_rect_intersection (p1, p2) ((vg.pos e).bbox false)
                then acc
                else acc ++ [elem]
            | _, _ => acc)
        acc)
    []

/-- The second phase of `straighten_edge`, threading `(vg, cnt)` through
the `to_straighten` list: move each element to the pred/succ midpoint when
that midpoint is inside its row bounds (otherwise leave it alone), and
count the moves.  `none` models the `unwrap`s and the bound-computation
panics. -/
def straighten_apply (st : VisualGraph × Nat) (l : List Nat) :
    Option (VisualGraph × Nat) :=
  l.foldlM
    (fun (st : VisualGraph × Nat) elem => do
      let vg := st.1
      let pred ← vg.dag.single_pred elem
      let succ ← vg.dag.single_succ elem
      let new_pos := ((vg.pos pred).centerAbs.add
        (vg.pos succ).centerAbs).scale (1/2)
      let bounds ← compute_bounds_for_node vg elem
      if in_rangeF bounds new_pos.x then
        let elems := modifyAt vg.elems elem fun e =>
          { e with pos := e.pos.set_x new_pos.x }
        pure ({ vg with elems := elems }, st.2 + 1)
      else pure (vg, st.2))
    st

/-- `straighten_edge(vg)`. -/
def straighten_edge (vg : VisualGraph) : Option (VisualGraph × Nat) :=
  straighten_apply (vg, 0) (straighten_candidates vg)

/-- Clamping a value into a possibly-infinite interval.  This follows the
specification text ("clamped to the feasible interval"); the code never
clamps, which is what the counterexample below exhibits. -/
def clamp_to_bounds (bounds : F64 × F64) (x : ℚ) : ℚ :=
  let xr := match bounds.2 with
    | .Fin hi => min x hi
    | _ => x
  match bounds.1 with
  | .Fin lo => max xr lo
  | _ => xr

/-- A three-row graph whose single straightening candidate (connector `1`,
between boxes `0` and `3`) has its pred/succ midpoint X (`100`) outside
the feasible interval `(-inf, 9]` imposed by its right row neighbor `2`. -/
def cvgFix : VisualGraph :=
  { dag := { nodes := [⟨[1], []⟩, ⟨[3], [0]⟩, ⟨[], []⟩, ⟨[], [1]⟩]
             ranks := [[0], [1, 2], [3]]
             levels := [0, 1, 1, 2] }
    elems := [⟨⟨⟨100, 0⟩, ⟨2, 2⟩, ⟨0, 0⟩, ⟨0, 0⟩⟩, false⟩,
      ⟨⟨⟨0, 10⟩, ⟨1, 1⟩, ⟨0, 0⟩, ⟨0, 0⟩⟩, true⟩,
      ⟨⟨⟨10, 10⟩, ⟨2, 2⟩, ⟨0, 0⟩, ⟨0, 0⟩⟩, false⟩,
      ⟨⟨⟨100, 20⟩, ⟨2, 2⟩, ⟨0, 0⟩, ⟨0, 0⟩⟩, false⟩]
    edges := [⟨false, [0, 1, 3]⟩]
    self_edges := [] }

/-- Counterexample for C6: connector `1` of `cvgFix` satisfies every
candidate condition of the claim (it is collected by the scan), its
feasible interval is `(-inf, 9]` and the pred/succ midpoint is `(100, 10)`,
yet `straighten_edge` leaves its center X at `0`: an out-of-range midpoint
is simply skipped, never clamped to the interval (which would give `9`). -/
theorem straighten_edge_not_clamped :
    ∃ st, straighten_edge cvgFix = some st ∧
      straighten_candidates cvgFix = [1] ∧
      compute_bounds_for_node cvgFix 1 = some (.NegInf, .Fin 9) ∧
      ((cvgFix.pos 0).centerAbs.add (cvgFix.pos 3).centerAbs).scale (1 / 2)
        = ⟨100, 10⟩ ∧
      (st.1.pos 1).centerAbs.x = 0 ∧
      clamp_to_bounds (.NegInf, .Fin 9) 100 = 9 := by
  refine ⟨_, rfl, ?_, ?_, ?_, ?_, ?_⟩ <;> decide

/-- C6 (amended): `straighten_edge` processes the collected candidates in
order, and each step moves the candidate to its pred/succ midpoint exactly
when that midpoint lies inside the feasible interval between its row
neighbors, leaving it untouched otherwise - the midpoint is never clamped
into the interval.  `st1` is the state after the first `k` candidates. -/
theorem straighten_edge_spec (vg : VisualGraph) (k : Nat)
    (hk : k < (straighten_candidates vg).length)
    (st1 : VisualGraph × Nat)
    (h1 : straighten_apply (vg, 0) ((straighten_candidates vg).take k)
      = some st1)
    (e pred succ : Nat)
    (he : (straighten_candidates vg).getD k 0 = e)
    (hp : st1.1.dag.single_pred e = some pred)
    (hs : st1.1.dag.single_succ e = some succ)
    (bounds : F64 × F64)
    (hb : compute_bounds_for_node st1.1 e = some bounds)
    (hel : e < st1.1.elems.length)
    (mid : Point)
    (hmid : ((st1.1.pos pred).centerAbs.add
      (st1.1.pos succ).centerAbs).scale (1 / 2) = mid) :
    ∃ st2,
      straighten_apply (vg, 0) ((straighten_candidates vg).take (k + 1))
        = some st2 ∧
      (k + 1 = (straighten_candidates vg).length →
        straighten_edge vg = some st2) ∧
      (in_rangeF bounds mid.x = true →
        (st2.1.pos e).centerAbs.x = mid.x ∧ st2.2 = st1.2 + 1 ∧
        ∀ j, j ≠ e → st2.1.pos j = st1.1.pos j) ∧
      (in_rangeF bounds mid.x = false → st2 = st1) := by
  set L := straighten_candidates vg with hL
  have hLk : L[k]? = some e := by
    rw [List.getElem?_eq_getElem hk]
    rw [List.getD_eq_getElem?_getD, List.getElem?_eq_getElem hk] at he
    simp only [Option.getD_some] at he
    rw [he]
  have htake : L.take (k + 1) = L.take k ++ [e] := by
    rw [List.take_succ, hLk]
    rfl
  have happ : straighten_apply (vg, 0) (L.take (k + 1))
      = straighten_apply st1 [e] := by
    simp only [straighten_apply] at h1 ⊢
    rw [htake, List.foldlM_append, h1]
    rfl
  have hstep : straighten_apply st1 [e] =
      if in_rangeF bounds mid.x then
        some ({ st1.1 with elems := modifyAt st1.1.elems e fun el =>
          { el with pos := el.pos.set_x mid.x } }, st1.2 + 1)
      else some (st1.1, st1.2) := by
    simp only [straighten_apply, List.foldlM_cons, List.foldlM_nil, hp, hs,
      hb, hmid, Option.bind_eq_bind, Option.some_bind, Option.pure_def,
      Option.bind_some]
  by_cases hin : in_rangeF bounds mid.x = true
  · have h2 : straighten_apply (vg, 0) (L.take (k + 1)) =
        some ({ st1.1 with elems := modifyAt st1.1.elems e fun el =>
          { el with pos := el.pos.set_x mid.x } }, st1.2 + 1) := by
      rw [happ, hstep, if_pos hin]
    refine ⟨_, h2, ?_, ?_, ?_⟩
    · intro hlen
      have ht : L.take (k + 1) = L := by
        rw [hlen]
        exact List.take_length L
      rw [straighten_edge, ← hL, ← ht]
      exact h2
    · intro _
      refine ⟨?_, rfl, ?_⟩
      · show ((modifyAt st1.1.elems e _).getD e default).pos.centerAbs.x = _
        rw [modifyAt_getD_self _ _ _ _ hel]
        exact centerAbs_set_x _ _
      · intro j hj
        show ((modifyAt st1.1.elems e _).getD j default).pos = _
        rw [modifyAt_getD_other _ _ _ _ _ hj]
        rfl
    · intro hfalse
      rw [hin] at hfalse
      exact absurd hfalse (by simp)
  · have h2 : straighten_apply (vg, 0) (L.take (k + 1)) =
        some (st1.1, st1.2) := by
      rw [happ, hstep, if_neg hin]
    refine ⟨_, h2, ?_, ?_, ?_⟩
    · intro hlen
      have ht : L.take (k + 1) = L := by
        rw [hlen]
        exact List.take_length L
      rw [straighten_edge, ← hL, ← ht]
      exact h2
    · intro htrue
      exact absurd htrue hin
    · intro _
      rfl

/-- `cvgFix` with the endpoints at X = 5, so the candidate midpoint lies
inside the feasible interval and the connector gets moved. -/
def cvgFix2 : VisualGraph :=
  { dag := { nodes := [⟨[1], []⟩, ⟨[3], [0]⟩, ⟨[], []⟩, ⟨[], [1]⟩]
             ranks := [[0], [1, 2], [3]]
             levels := [0, 1, 1, 2] }
    elems := [⟨⟨⟨5, 0⟩, ⟨2, 2⟩, ⟨0, 0⟩, ⟨0, 0⟩⟩, false⟩,
      ⟨⟨⟨0, 10⟩, ⟨1, 1⟩, ⟨0, 0⟩, ⟨0, 0⟩⟩, true⟩,
      ⟨⟨⟨10, 10⟩, ⟨2, 2⟩, ⟨0, 0⟩, ⟨0, 0⟩⟩, false⟩,
      ⟨⟨⟨5, 20⟩, ⟨2, 2⟩, ⟨0, 0⟩, ⟨0, 0⟩⟩, false⟩]
    edges := [⟨false, [0, 1, 3]⟩]
    self_edges := [] }

/-- Witness for C6 (amended): on `cvgFix2` the single candidate is
connector `1`, its midpoint `5` lies inside the bounds `(-inf, 9]`, and the
step moves its center X to `5` while leaving every other node alone. -/
theorem straighten_edge_spec_witness :
    straighten_candidates cvgFix2 = [1] ∧
    compute_bounds_for_node cvgFix2 1 = some (.NegInf, .Fin 9) ∧
    ∃ st2,
      straighten_apply (cvgFix2, 0)
        ((straighten_candidates cvgFix2).take (0 + 1)) = some st2 ∧
      (0 + 1 = (straighten_candidates cvgFix2).length →
        straighten_edge cvgFix2 = some st2) ∧
      (in_rangeF (.NegInf, .Fin 9) (Point.mk 5 10).x = true →
        (st2.1.pos 1).centerAbs.x = (Point.mk 5 10).x ∧
        st2.2 = (cvgFix2, 0).2 + 1 ∧
        ∀ j, j ≠ 1 → st2.1.pos j = (cvgFix2, 0).1.pos j) ∧
      (in_rangeF (.NegInf, .Fin 9) (Point.mk 5 10).x = false →
        st2 = (cvgFix2, 0)) :=
  ⟨by decide, by decide,
   straighten_edge_spec cvgFix2 0 (by decide) (cvgFix2, 0) rfl 1 0 3
     (by decide) (by decide) (by decide) (.NegInf, .Fin 9) (by decide)
     (by decide) ⟨5, 10⟩ (by decide)⟩

/-! ### Graph canonicalization and ranking (`topo/layout.rs`, `adt/dag.rs`)

The pipeline below is `VisualGraph::lower`: `to_valid_dag`,
`split_text_edges`, `split_long_edges` (which re-ranks, runs the two
optimizers and expands self edges).  Every Rust assertion and every
out-of-range index is a `none`; the unbounded loops carry enough fuel for
every terminating run, and exhausting it is also `none`. -/

/-- `DAG::verify` as a boolean (the `validate` flag is never cleared in the
sources, so the three checks always run): successor handles in range, no
cycle through distinct nodes, and all nodes placed in ranks. -/
def DAG.verify_ok (g : DAG) : Bool :=
  (g.nodes.all fun nd => nd.successors.all fun e =>
    decide (e < g.nodes.length)) &&
  ((List.range g.nodes.length).all fun i =>
    (g.successors i).all fun dest =>
      !(g.is_reachable dest i && decide (i ≠ dest))) &&
  decide (g.ranks.foldl (fun a r => a + r.length) 0 = g.len)

/-- The worklist loop of `DAG::topological_sort` (post-order DFS driven by
an explicit stack whose head is the stack top; `true` entries are the
deferred `push` commands).  An out-of-range handle is `none`, as is fuel
exhaustion (which no terminating run reaches: every iteration pops one
entry and the total number of pushes is bounded). -/
def DAG.topological_sort_loop (g : DAG) :
    Nat → List Nat → List Bool → List (Nat × Bool) → Option (List Nat)
  | 0, _, _, _ => none
  | fuel + 1, order, visited, worklist =>
    match worklist with
    | [] => some order
    | (current, cmd) :: rest =>
      if cmd then
        g.topological_sort_loop fuel (order ++ [current]) visited rest
      else if current < visited.length ∧ current < g.nodes.length then
        if visited.getD current false then
          g.topological_sort_loop fuel order visited rest
        else
          let visited := visited.set current true
          let succs := (g.nodes.getD current ⟨[], []⟩).successors
          let worklist := (succs.reverse.map fun s => (s, false)) ++
            (current, true) :: rest
          g.topological_sort_loop fuel order visited worklist
      else none

/-- `DAG::topological_sort`: reverse post-order.  The fuel bounds the
number of pops: `n` initial entries plus, for each first visit, one `push`
command and the successor fan-out. -/
def DAG.topological_sort (g : DAG) : Option (List Nat) := do
  let n := g.nodes.length
  let e := g.nodes.foldl (fun a nd => a + nd.successors.length) 0
  let order ← g.topological_sort_loop (2 * n + e + 1) []
    (List.replicate n false) ((List.range n).reverse.map fun i => (i, false))
  pure order.reverse

/-- `DAG::compute_levels(order)`: push every successor below the level of
its source, in topological order, then check the resulting monotonicity
(the trailing assert loop). -/
def DAG.compute_levels (g : DAG) (order : List Nat) : Option (List Nat) := do
  if order.length = g.nodes.length then
    let levels ← order.foldlM
      (fun (levels : List Nat) src =>
        if src < g.nodes.length then
          (g.successors src).foldlM
            (fun (levels : List Nat) dest =>
              if src = dest then pure levels
              else if dest < levels.length then
                pure (levels.set dest
                  (max (levels.getD dest 0) (levels.getD src 0 + 1)))
              else none)
            levels
        else none)
      (List.replicate g.nodes.length 0)
    if order.all (fun src => (g.successors src).all fun dest =>
        levels.getD src 0 ≤ levels.getD dest 0) then
      pure levels
    else none
  else none

/-- `DAG::recompute_node_ranks`: the entry assertion
`assert!(!self.is_empty(), "Sorting an empty graph")` is the first `none`
case; then sort, compute levels, clear the ranks and re-place every node. -/
def DAG.recompute_node_ranks (g : DAG) : Option DAG := do
  if g.is_empty then none
  else do
    let order ← g.topological_sort
    let levels ← g.compute_levels order
    let g1 : DAG := { g with ranks := [] }
    pure (levels.enum.foldl
      (fun g2 p => g2.add_element_to_rank p.1 p.2 false) g1)

/-- One `for node in self.dag.iter()` sweep of `RankOptimizer::optimize`,
counting the successful sinks. -/
def DAG.rank_optimize_pass (g : DAG) : Option (DAG × Nat) :=
  (List.range g.len).foldlM
    (fun (st : DAG × Nat) node => do
      let r ← st.1.try_to_sink_node node
      pure (r.1, if r.2 then st.2 + 1 else st.2))
    (g, 0)

/-- The `loop` of `RankOptimizer::optimize`: sweep until a sweep sinks
nothing.  Each successful sink strictly raises the level of one node and
levels stay below `len`, so `len * len + 2` sweeps cover every terminating
run. -/
def DAG.rank_optimize_loop : Nat → DAG → Option DAG
  | 0, _ => none
  | fuel + 1, g => do
    let r ← g.rank_optimize_pass
    if r.2 = 0 then pure r.1 else DAG.rank_optimize_loop fuel r.1

/-- `RankOptimizer::optimize` (the entry `self.dag.verify()` is the
guard). -/
def DAG.rank_optimize (g : DAG) : Option DAG :=
  if g.verify_ok then DAG.rank_optimize_loop (g.len * g.len + 2) g
  else none

/-- The layout-relevant projection of the connector elements created by
`Element::create_connector` and `Element::empty_connector`. -/
def connElem : Elem := ⟨⟨⟨0, 0⟩, ⟨0, 0⟩, ⟨0, 0⟩, ⟨0, 0⟩⟩, true⟩

/-- `VisualGraph::add_node(elem)`: a fresh DAG node whose handle must line
up with the element list (the entry assertion). -/
def VisualGraph.add_node (vg : VisualGraph) (e : Elem) :
    Option (VisualGraph × Nat) :=
  let d := vg.dag.new_node
  if d.2 = vg.elems.length then
    some ({ vg with dag := d.1, elems := vg.elems ++ [e] }, d.2)
  else none

/-- `VisualGraph::to_valid_dag`: rebuild the edge list, stashing self
edges, flipping back edges (`is_reachable(to, from)`) and verifying the
DAG after every insertion. -/
def VisualGraph.to_valid_dag (vg : VisualGraph) : Option VisualGraph := do
  let edges := vg.edges
  let vg0 : VisualGraph := { vg with edges := [] }
  if vg0.elems.length = vg0.dag.len then
    edges.foldlM
      (fun vg edge => do
        match edge.path with
        | [f0, t0] =>
          if f0 = t0 then
            pure { vg with self_edges := vg.self_edges ++ [f0] }
          else
            let p : Nat × Nat :=
              if vg.dag.is_reachable t0 f0 then (t0, f0) else (f0, t0)
            if p.1 < vg.elems.length ∧ p.2 < vg.elems.length then
              let d := vg.dag.add_edge p.1 p.2
              let es := vg.edges ++ [⟨edge.has_text, [p.1, p.2]⟩]
              let vg : VisualGraph := { vg with dag := d, edges := es }
              if vg.dag.verify_ok then pure vg else none
            else none
        | _ => none)
      vg0
  else none

/-- `VisualGraph::split_text_edges`: route every labelled edge through a
fresh connector carrying the label.  The `assert!(res)` after
`remove_edge` is the `removed` guard. -/
def VisualGraph.split_text_edges (vg : VisualGraph) : Option VisualGraph := do
  let res ← vg.edges.foldlM
    (fun (st : VisualGraph × List EdgeM) edge => do
      let vg := st.1
      match edge.path with
      | [fr, dst] =>
        if !edge.has_text then pure (vg, st.2 ++ [edge])
        else if fr < vg.elems.length then do
          let r ← vg.add_node connElem
          let r2 ← r.1.dag.remove_edge fr dst
          if r2.2 then
            let d := (r2.1.add_edge fr r.2).add_edge r.2 dst
            pure ({ r.1 with dag := d }, st.2 ++ [⟨false, [fr, r.2, dst]⟩])
          else none
        else none
      | _ => none)
    (vg, ([] : List EdgeM))
  pure { res.1 with edges := res.2 }

/-- The `while i < lst.len()` loop of `split_long_edges`, for one edge:
walk the path and, whenever a pair spans more than one level, splice in an
empty connector one level below the source of the pair and retry the same
index.  Every iteration either advances `i` or shrinks the level gap of
the current pair, which bounds the iteration count. -/
def VisualGraph.split_edge_loop :
    Nat → VisualGraph → Nat → List Nat → Option (VisualGraph × List Nat)
  | 0, _, _, _ => none
  | fuel + 1, vg, i, lst =>
    if i < lst.length then
      let prev := lst.getD (i - 1) 0
      let curr := lst.getD i 0
      if prev < vg.dag.levels.length ∧ curr < vg.dag.levels.length then
        let prev_level := vg.dag.level prev
        let curr_level := vg.dag.level curr
        if prev_level < curr_level then
          if prev_level + 1 = curr_level then
            VisualGraph.split_edge_loop fuel vg (i + 1) lst
          else if prev < vg.elems.length then do
            let r ← vg.add_node connElem
            let lst2 := lst.insertIdx i r.2
            let r2 ← r.1.dag.remove_edge prev curr
            let d := (r2.1.add_edge prev r.2).add_edge r.2 curr
            let d2 ← d.update_node_rank_level r.2 (prev_level + 1) none
            VisualGraph.split_edge_loop fuel { r.1 with dag := d2 } i lst2
          else none
        else none
      else none
    else some (vg, lst)

/-- The consecutive pairs of an edge path; every DAG edge built by the
canonicalization steps is such a pair. -/
def pathPairs : List Nat → List (Nat × Nat)
  | a :: b :: t => (a, b) :: pathPairs (b :: t)
  | _ => []

/-- How often `(a, b)` occurs as a consecutive pair across a list of edge
paths. -/
def pairCount (edges : List EdgeM) (a b : Nat) : Nat :=
  (edges.map fun e => (pathPairs e.path).count (a, b)).sum

/-- The `for edge in edges.iter_mut()` loop of `split_long_edges`: split
every multi-level pair of every edge path, rebuilding the edge list. -/
def VisualGraph.split_edges_pass (vg : VisualGraph) :
    Option (VisualGraph × List EdgeM) :=
  vg.edges.foldlM
    (fun (st : VisualGraph × List EdgeM) edge => do
      let fuel := (edge.path.length + 1) *
        (st.1.dag.levels.foldl max 0 + 2) + 1
      let r ← VisualGraph.split_edge_loop fuel st.1 1 edge.path
      pure (r.1, st.2 ++ [⟨edge.has_text, r.2⟩]))
    ({ vg with edges := [] }, ([] : List EdgeM))

/-- `VisualGraph::expand_self_edges`: one looping connector per stashed
self edge, placed on the same level right before its node; the self-edge
stash is wiped at the end. -/
def VisualGraph.expand_self_edges (vg : VisualGraph) : Option VisualGraph := do
  let r ← vg.self_edges.foldlM
    (fun vg node => do
      if node < vg.dag.levels.length ∧ node < vg.elems.length then
        let level := vg.dag.level node
        let r ← vg.add_node connElem
        let d ← r.1.dag.update_node_rank_level r.2 level (some node)
        let es := r.1.edges ++ [⟨false, [node, r.2, node]⟩]
        pure { r.1 with dag := d, edges := es }
      else none)
    vg
  pure { r with self_edges := [] }

/-- `VisualGraph::split_long_edges(disable_optimizations)`: re-rank
(`recompute_node_ranks` + `verify`), optionally sink ranks, split every
multi-level edge pair, optionally run the crossing optimizer, and expand
the self edges. -/
def VisualGraph.split_long_edges (vg : VisualGraph) (disable_opt : Bool) :
    Option VisualGraph := do
  let d ← vg.dag.recompute_node_ranks
  if d.verify_ok then
    let d ← if disable_opt then pure d else d.rank_optimize
    let vg1 : VisualGraph := { vg with dag := d }
    let res ← vg1.split_edges_pass
    let vg2 : VisualGraph := { res.1 with edges := res.2 }
    let vg3 : VisualGraph :=
      if disable_opt then vg2
      else { vg2 with dag := optimize vg2.dag (count_crossed_edges vg2.dag + 1) }
    vg3.expand_self_edges
  else none

/-- `VisualGraph::lower(disable_optimizations)`, the first step of
`do_it`.  The trailing per-element `resize` loop recomputes label sizes
from font metrics, touches neither the DAG nor the positions and cannot
abort, so it is the identity on the fragment modelled here. -/
def VisualGraph.lower (vg : VisualGraph) (disable_opt : Bool) :
    Option VisualGraph := do
  let vg ← vg.to_valid_dag
  let vg ← vg.split_text_edges
  vg.split_long_edges disable_opt

/-- The `VisualGraph` produced for `digraph \x7b\x7d`: zero nodes. -/
def emptyVG : VisualGraph := ⟨⟨[], [], []⟩, [], [], []⟩

/-- C7: the claim states that `do_it` on a zero-node `VisualGraph`
completes and renders an empty SVG.  In fact the very first stage of
`do_it` aborts: `lower` reaches `split_long_edges`, whose call to
`DAG::recompute_node_ranks` fires the assertion
`assert!(!self.is_empty(), "Sorting an empty graph")` - with or without
optimizations - so rendering is never reached. -/
theorem do_it_empty_graph_panics :
    emptyVG.dag.recompute_node_ranks = none ∧
    emptyVG.lower false = none ∧ emptyVG.lower true = none ∧
    emptyVG.to_valid_dag = some { emptyVG with edges := [] } ∧
    emptyVG.split_text_edges = some { emptyVG with edges := [] } := by
  refine ⟨rfl, rfl, rfl, rfl, rfl⟩

section SplitProof

private theorem succ_modify_succ_app (nodes : List DagNode)
    (ranks : List (List Nat)) (levels : List Nat) (i v : Nat)
    (hi : i < nodes.length) (a : Nat) :
    DAG.successors ⟨modifyAt nodes i fun n =>
        { n with successors := n.successors ++ [v] }, ranks, levels⟩ a =
      if a = i then DAG.successors ⟨nodes, ranks, levels⟩ a ++ [v]
      else DAG.successors ⟨nodes, ranks, levels⟩ a := by
  simp only [DAG.successors]
  by_cases h : a = i
  · subst h
    rw [modifyAt_getD_self _ _ _ _ hi, if_pos rfl]
  · rw [modifyAt_getD_other _ _ _ _ _ h, if_neg h]

private theorem pred_modify_succ_app (nodes : List DagNode)
    (ranks : List (List Nat)) (levels : List Nat) (i v : Nat) (b : Nat) :
    DAG.predecessors ⟨modifyAt nodes i fun n =>
        { n with successors := n.successors ++ [v] }, ranks, levels⟩ b =
      DAG.predecessors ⟨nodes, ranks, levels⟩ b := by
  simp only [DAG.predecessors]
  by_cases h : b = i
  · subst h
    by_cases hb : b < nodes.length
    · rw [modifyAt_getD_self _ _ _ _ hb]
    · rw [modifyAt_oob _ _ _ hb]
  · rw [modifyAt_getD_other _ _ _ _ _ h]

private theorem pred_modify_pred_app (nodes : List DagNode)
    (ranks : List (List Nat)) (levels : List Nat) (i v : Nat)
    (hi : i < nodes.length) (b : Nat) :
    DAG.predecessors ⟨modifyAt nodes i fun n =>
        { n with predecessors := n.predecessors ++ [v] }, ranks, levels⟩ b =
      if b = i then DAG.predecessors ⟨nodes, ranks, levels⟩ b ++ [v]
      else DAG.predecessors ⟨nodes, ranks, levels⟩ b := by
  simp only [DAG.predecessors]
  by_cases h : b = i
  · subst h
    rw [modifyAt_getD_self _ _ _ _ hi, if_pos rfl]
  · rw [modifyAt_getD_other _ _ _ _ _ h, if_neg h]

private theorem succ_modify_pred_app (nodes : List DagNode)
    (ranks : List (List Nat)) (levels : List Nat) (i v : Nat) (a : Nat) :
    DAG.successors ⟨modifyAt nodes i fun n =>
        { n with predecessors := n.predecessors ++ [v] }, ranks, levels⟩ a =
      DAG.successors ⟨nodes, ranks, levels⟩ a := by
  simp only [DAG.successors]
  by_cases h : a = i
  · subst h
    by_cases ha : a < nodes.length
    · rw [modifyAt_getD_self _ _ _ _ ha]
    · rw [modifyAt_oob _ _ _ ha]
  · rw [modifyAt_getD_other _ _ _ _ _ h]

private theorem remove_edge_shape (g : DAG) (fr dst : Nat) (r : DAG × Bool)
    (h : g.remove_edge fr dst = some r) :
    r.1.levels = g.levels ∧ r.1.ranks = g.ranks ∧
    r.1.nodes.length = g.nodes.length ∧
    r.1.successors fr = (g.successors fr).erase dst ∧
    (∀ a, a ≠ fr → r.1.successors a = g.successors a) ∧
    r.1.predecessors dst = (g.predecessors dst).erase fr ∧
    (∀ b, b ≠ dst → r.1.predecessors b = g.predecessors b) := by
  simp only [DAG.remove_edge] at h
  split at h
  case isFalse => exact absurd h (by simp)
  case isTrue hrange =>
    split at h
    case isFalse => exact absurd h (by simp)
    case isTrue heq =>
      injection h with h
      subst h
      refine ⟨rfl, rfl, by simp [modifyAt_length], ?_, ?_, ?_, ?_⟩
      · rw [succ_modify_pred, succ_modify_succ _ _ _ _ _ hrange.1, if_pos rfl,
          succ_eta]
      · intro a ha
        rw [succ_modify_pred, succ_modify_succ _ _ _ _ _ hrange.1,
          if_neg ha, succ_eta]
      · rw [pred_modify_pred _ _ _ _ _ (by simpa [modifyAt_length] using
          hrange.2), if_pos rfl, pred_modify_succ, pred_eta]
      · intro b hb
        rw [pred_modify_pred _ _ _ _ _ (by simpa [modifyAt_length] using
          hrange.2), if_neg hb, pred_modify_succ, pred_eta]

private theorem add_edge_shape (g : DAG) (fr dst : Nat)
    (hf : fr < g.nodes.length) (hd : dst < g.nodes.length) :
    (g.add_edge fr dst).levels = g.levels ∧
    (g.add_edge fr dst).ranks = g.ranks ∧
    (g.add_edge fr dst).nodes.length = g.nodes.length ∧
    (g.add_edge fr dst).successors fr = g.successors fr ++ [dst] ∧
    (∀ a, a ≠ fr → (g.add_edge fr dst).successors a = g.successors a) ∧
    (g.add_edge fr dst).predecessors dst = g.predecessors dst ++ [fr] ∧
    (∀ b, b ≠ dst → (g.add_edge fr dst).predecessors b = g.predecessors b)
    := by
  refine ⟨rfl, rfl, by simp [DAG.add_edge, modifyAt_length], ?_, ?_, ?_, ?_⟩
  · show DAG.successors ⟨_, g.ranks, g.levels⟩ fr = _
    rw [succ_modify_pred_app, succ_modify_succ_app _ _ _ _ _ hf, if_pos rfl,
      succ_eta]
  · intro a ha
    show DAG.successors ⟨_, g.ranks, g.levels⟩ a = _
    rw [succ_modify_pred_app, succ_modify_succ_app _ _ _ _ _ hf, if_neg ha,
      succ_eta]
  · show DAG.predecessors ⟨_, g.ranks, g.levels⟩ dst = _
    rw [pred_modify_pred_app _ _ _ _ _ (by simpa [modifyAt_length] using hd),
      if_pos rfl, pred_modify_succ_app, pred_eta]
  · intro b hb
    show DAG.predecessors ⟨_, g.ranks, g.levels⟩ b = _
    rw [pred_modify_pred_app _ _ _ _ _ (by simpa [modifyAt_length] using hd),
      if_neg hb, pred_modify_succ_app, pred_eta]

private theorem getD_eq_get (l : List Nat) (i : Nat) (h : i < l.length) :
    l.getD i 0 = l[i] := by
  rw [List.getD_eq_getElem?_getD, List.getElem?_eq_getElem h]
  rfl

private theorem new_node_shape (g : DAG)
    (hlen : g.levels.length = g.nodes.length) :
    (g.new_node).2 = g.nodes.length ∧
    (g.new_node).1.nodes.length = g.nodes.length + 1 ∧
    (g.new_node).1.levels.length = g.nodes.length + 1 ∧
    (∀ a, (g.new_node).1.successors a =
      if a = g.nodes.length then [] else g.successors a) ∧
    (∀ a, (g.new_node).1.predecessors a =
      if a = g.nodes.length then [] else g.predecessors a) ∧
    (∀ x, x < g.levels.length → (g.new_node).1.level x = g.level x) ∧
    (g.new_node).1.level g.nodes.length = 0 := by
  have h2 : (g.new_node).2 = g.nodes.length := by
    simp [DAG.new_node]
  have hnodes : (g.new_node).1.nodes = g.nodes ++ [⟨[], []⟩] := by
    simp [DAG.new_node, DAG.add_element_to_rank]
  have hlevels : (g.new_node).1.levels =
      (g.levels ++ [0]).set (g.nodes.length + 1 - 1) (0 : Nat) := by
    simp [DAG.new_node, DAG.add_element_to_rank]
  have hset : (g.levels ++ [0]).set (g.nodes.length + 1 - 1) (0 : Nat) =
      g.levels ++ [0] := by
    have : g.nodes.length + 1 - 1 = g.levels.length := by omega
    rw [this]
    apply List.ext_getElem?
    intro k
    by_cases hk : k = g.levels.length
    · subst hk
      rw [List.getElem?_set_eq_of_lt _ (by simp)]
      rw [List.getElem?_concat_length]
    · rw [List.getElem?_set_ne (by omega)]
  rw [hset] at hlevels
  refine ⟨h2, by rw [hnodes]; simp, by rw [hlevels]; simp [hlen], ?_, ?_,
    ?_, ?_⟩
  · intro a
    show ((g.new_node).1.nodes.getD a ⟨[], []⟩).successors = _
    rw [hnodes]
    by_cases ha : a = g.nodes.length
    · subst ha
      rw [if_pos rfl]
      simp [List.getD, List.getElem?_concat_length]
    · rw [if_neg ha]
      by_cases ha2 : a < g.nodes.length
      · show _ = (g.nodes.getD a ⟨[], []⟩).successors
        rw [List.getD_append _ _ _ _ ha2]
      · have e1 : (g.nodes ++ [(⟨[], []⟩ : DagNode)]).getD a ⟨[], []⟩ =
            (⟨[], []⟩ : DagNode) := List.getD_eq_default _ _ (by simp; omega)
        have e2 : g.nodes.getD a ⟨[], []⟩ = (⟨[], []⟩ : DagNode) :=
          List.getD_eq_default _ _ (by omega)
        show _ = (g.nodes.getD a ⟨[], []⟩).successors
        rw [e1, e2]
  · intro a
    show ((g.new_node).1.nodes.getD a ⟨[], []⟩).predecessors = _
    rw [hnodes]
    by_cases ha : a = g.nodes.length
    · subst ha
      rw [if_pos rfl]
      simp [List.getD, List.getElem?_concat_length]
    · rw [if_neg ha]
      by_cases ha2 : a < g.nodes.length
      · show _ = (g.nodes.getD a ⟨[], []⟩).predecessors
        rw [List.getD_append _ _ _ _ ha2]
      · have e1 : (g.nodes ++ [(⟨[], []⟩ : DagNode)]).getD a ⟨[], []⟩ =
            (⟨[], []⟩ : DagNode) := List.getD_eq_default _ _ (by simp; omega)
        have e2 : g.nodes.getD a ⟨[], []⟩ = (⟨[], []⟩ : DagNode) :=
          List.getD_eq_default _ _ (by omega)
        show _ = (g.nodes.getD a ⟨[], []⟩).predecessors
        rw [e1, e2]
  · intro x hx
    show (g.new_node).1.levels.getD x 0 = g.levels.getD x 0
    rw [hlevels, List.getD_append _ _ _ _ hx]
  · show (g.new_node).1.levels.getD g.nodes.length 0 = 0
    rw [hlevels, ← hlen]
    rw [List.getD_eq_getElem?_getD, List.getElem?_concat_length]
    rfl

private theorem update_rank_shape (g : DAG) (node lvl : Nat)
    (ib : Option Nat) (d2 : DAG)
    (h : g.update_node_rank_level node lvl ib = some d2) :
    d2.nodes = g.nodes ∧ d2.levels = g.levels.set node lvl := by
  simp only [DAG.update_node_rank_level] at h
  split at h
  case isFalse => exact absurd h (by simp)
  case isTrue =>
    split at h
    case isFalse => exact absurd h (by simp)
    case isTrue =>
      split at h
      case h_1 => exact absurd h (by simp)
      case h_2 =>
        split at h
        case h_1 =>
          split at h
          case h_1 => exact absurd h (by simp)
          case h_2 =>
            injection h with h
            subst h
            exact ⟨rfl, rfl⟩
        case h_2 =>
          split at h
          case isFalse => exact absurd h (by simp)
          case isTrue =>
            injection h with h
            subst h
            exact ⟨rfl, rfl⟩

private theorem add_node_shape (vg : VisualGraph) (e : Elem)
    (r : VisualGraph × Nat) (h : vg.add_node e = some r) :
    r.2 = vg.dag.nodes.length ∧ r.1.dag = (vg.dag.new_node).1 ∧
    r.1.elems = vg.elems ++ [e] := by
  simp only [VisualGraph.add_node] at h
  split at h
  case isFalse => exact absurd h (by simp)
  case isTrue =>
    injection h with h
    subst h
    refine ⟨by simp [DAG.new_node], rfl, rfl⟩

private theorem pathPairs_short (l : List Nat) (h : l.length ≤ 1) :
    pathPairs l = [] := by
  cases l with
  | nil => rfl
  | cons a t =>
    cases t with
    | nil => rfl
    | cons b t2 => simp at h

private theorem pathPairs_drop_cons (lst : List Nat) (i : Nat)
    (h1 : 1 ≤ i) (h2 : i < lst.length) :
    pathPairs (lst.drop (i - 1)) =
      (lst.getD (i - 1) 0, lst.getD i 0) :: pathPairs (lst.drop i) := by
  have hd1 : lst.drop (i - 1) = lst.getD (i - 1) 0 :: lst.drop i := by
    have hi1 : i - 1 + 1 = i := by omega
    rw [List.drop_eq_getElem_cons (show i - 1 < lst.length by omega),
      getD_eq_get _ _ (by omega)]
    refine congrArg₂ List.cons rfl ?_
    rw [hi1]
  have hd2 : lst.drop i = lst.getD i 0 :: lst.drop (i + 1) := by
    rw [List.drop_eq_getElem_cons h2, getD_eq_get _ _ h2]
  rw [hd1, hd2]
  rfl

private theorem drop_insertIdx :
    ∀ (j : Nat) (lst : List Nat) (c : Nat), j + 1 ≤ lst.length →
      ((lst.insertIdx (j + 1) c).drop j) =
        lst.getD j 0 :: c :: lst.drop (j + 1) := by
  intro j
  induction j with
  | zero =>
    intro lst c h
    cases lst with
    | nil => simp at h
    | cons a t =>
      simp [List.insertIdx_succ_cons]
  | succ n ih =>
    intro lst c h
    cases lst with
    | nil => simp at h
    | cons a t =>
      rw [List.insertIdx_succ_cons, List.drop_succ_cons, ih t c (by
        simpa using h)]
      rfl

private theorem succ_congr_nodes (d e : DAG) (h : d.nodes = e.nodes)
    (a : Nat) : d.successors a = e.successors a := by
  simp only [DAG.successors, h]

private theorem pred_congr_nodes (d e : DAG) (h : d.nodes = e.nodes)
    (b : Nat) : d.predecessors b = e.predecessors b := by
  simp only [DAG.predecessors, h]

/-- The combined shape of one connector insertion of `split_edge_loop`:
fresh node, edge `prev -> curr` removed, edges `prev -> conn` and
`conn -> curr` added, and `conn` moved to level `lvl`. -/
private theorem split_insert_step (vg : VisualGraph) (prev curr lvl : Nat)
    (hA0 : vg.dag.levels.length = vg.dag.nodes.length)
    (hpl : prev < vg.dag.levels.length) (hcl : curr < vg.dag.levels.length)
    (r : VisualGraph × Nat) (hr : vg.add_node connElem = some r)
    (r2 : DAG × Bool) (hr2 : r.1.dag.remove_edge prev curr = some r2)
    (d2 : DAG)
    (hd2 : ((r2.1.add_edge prev r.2).add_edge r.2 curr).update_node_rank_level
      r.2 lvl none = some d2) :
    r.2 = vg.dag.nodes.length ∧
    d2.nodes.length = vg.dag.nodes.length + 1 ∧
    d2.levels.length = vg.dag.nodes.length + 1 ∧
    (∀ x, x < vg.dag.levels.length → d2.level x = vg.dag.level x) ∧
    d2.level r.2 = lvl ∧
    d2.successors prev = (vg.dag.successors prev).erase curr ++ [r.2] ∧
    d2.successors r.2 = [curr] ∧
    (∀ a, a ≠ prev → a ≠ r.2 → d2.successors a = vg.dag.successors a) ∧
    d2.predecessors curr = (vg.dag.predecessors curr).erase prev ++ [r.2] ∧
    d2.predecessors r.2 = [prev] ∧
    (∀ b, b ≠ curr → b ≠ r.2 → d2.predecessors b = vg.dag.predecessors b)
    := by
  obtain ⟨hc2, hdagA, _⟩ := add_node_shape vg connElem r hr
  obtain ⟨nn2, nnlen, nnlevlen, nnsucc, nnpred, nnlevpres, nnlevconn⟩ :=
    new_node_shape vg.dag hA0
  have hconn : r.2 = vg.dag.nodes.length := by rw [hc2]
  have hpln : prev < vg.dag.nodes.length := by omega
  have hcln : curr < vg.dag.nodes.length := by omega
  have hpconn : prev ≠ r.2 := by omega
  have hcconn : curr ≠ r.2 := by omega
  obtain ⟨rslev, rsrank, rslen, rssucc, rssucc2, rspred, rspred2⟩ :=
    remove_edge_shape r.1.dag prev curr r2 hr2
  have hAlen : r.1.dag.nodes.length = vg.dag.nodes.length + 1 := by
    rw [hdagA]; exact nnlen
  have hr2len : r2.1.nodes.length = vg.dag.nodes.length + 1 := by
    rw [rslen, hAlen]
  obtain ⟨ae1lev, ae1rank, ae1len, ae1succ, ae1succ2, ae1pred, ae1pred2⟩ :=
    add_edge_shape r2.1 prev r.2 (by omega) (by omega)
  obtain ⟨ae2lev, ae2rank, ae2len, ae2succ, ae2succ2, ae2pred, ae2pred2⟩ :=
    add_edge_shape (r2.1.add_edge prev r.2) r.2 curr
      (by rw [ae1len]; omega) (by rw [ae1len]; omega)
  obtain ⟨usnodes, uslev⟩ := update_rank_shape _ r.2 lvl none d2 hd2
  have hAlev : r.1.dag.levels = (vg.dag.new_node).1.levels := by rw [hdagA]
  have hE2lev : ((r2.1.add_edge prev r.2).add_edge r.2 curr).levels =
      r.1.dag.levels := by rw [ae2lev, ae1lev, rslev]
  have hlevlen : d2.levels.length = vg.dag.nodes.length + 1 := by
    rw [uslev, List.length_set, hE2lev, hAlev]
    rw [show (vg.dag.new_node).1.levels.length = vg.dag.nodes.length + 1
      from nnlevlen]
  have hsuccd2 : ∀ a, d2.successors a =
      ((r2.1.add_edge prev r.2).add_edge r.2 curr).successors a :=
    fun a => succ_congr_nodes _ _ usnodes a
  have hpredd2 : ∀ b, d2.predecessors b =
      ((r2.1.add_edge prev r.2).add_edge r.2 curr).predecessors b :=
    fun b => pred_congr_nodes _ _ usnodes b
  have hsuccA : ∀ a, r.1.dag.successors a =
      if a = vg.dag.nodes.length then [] else vg.dag.successors a := by
    intro a
    rw [show r.1.dag.successors a = (vg.dag.new_node).1.successors a from by
      rw [hdagA]]
    exact nnsucc a
  have hpredA : ∀ b, r.1.dag.predecessors b =
      if b = vg.dag.nodes.length then [] else vg.dag.predecessors b := by
    intro b
    rw [show r.1.dag.predecessors b = (vg.dag.new_node).1.predecessors b from
      by rw [hdagA]]
    exact nnpred b
  refine ⟨hconn, ?_, hlevlen, ?_, ?_, ?_, ?_, ?_, ?_, ?_, ?_⟩
  · rw [show d2.nodes.length =
      ((r2.1.add_edge prev r.2).add_edge r.2 curr).nodes.length from by
        rw [usnodes], ae2len, ae1len, hr2len]
  · intro x hx
    have hxconn : x ≠ r.2 := by omega
    show d2.levels.getD x 0 = vg.dag.levels.getD x 0
    rw [uslev, getD_set_other _ _ _ _ _ hxconn, hE2lev, hAlev]
    exact nnlevpres x hx
  · show d2.levels.getD r.2 0 = lvl
    have hlenE2 : ((r2.1.add_edge prev r.2).add_edge r.2 curr).levels.length
        = vg.dag.nodes.length + 1 := by
      rw [hE2lev, hAlev]
      exact nnlevlen
    rw [uslev, getD_set_self _ _ _ _ (by omega)]
  · rw [hsuccd2, ae2succ2 prev hpconn, ae1succ, rssucc, hsuccA,
      if_neg (by omega)]
  · rw [hsuccd2, ae2succ, ae1succ2 r.2 (fun he => hpconn he.symm),
      rssucc2 r.2 (fun he => hpconn he.symm), hsuccA, if_pos hconn]
    rfl
  · intro a hap hac
    rw [hsuccd2, ae2succ2 a hac, ae1succ2 a hap, rssucc2 a hap, hsuccA,
      if_neg (by omega)]
  · rw [hpredd2, ae2pred, ae1pred2 curr hcconn, rspred, hpredA,
      if_neg (by omega)]
  · rw [hpredd2, ae2pred2 r.2 (fun he => hcconn he.symm), ae1pred,
      rspred2 r.2 (fun he => hcconn he.symm), hpredA, if_pos hconn]
    rfl
  · intro b hbc hbconn
    rw [hpredd2, ae2pred2 b hbc, ae1pred2 b hbconn, rspred2 b hbc, hpredA,
      if_neg (by omega)]

private theorem count_cons_pair (p q : Nat × Nat) (l : List (Nat × Nat)) :
    (q :: l).count p = l.count p + if p = q then 1 else 0 := by
  simp only [List.count_cons]
  by_cases h : p = q
  · subst h
    simp
  · simp [h, Ne.symm h]

private theorem count_singleton_nat (x y : Nat) :
    ([x] : List Nat).count y = if y = x then 1 else 0 := by
  by_cases h : y = x
  · subst h
    simp
  · simp [h, Ne.symm h]

private theorem count_snoc (l : List Nat) (x y : Nat) :
    (l ++ [x]).count y = l.count y + if y = x then 1 else 0 := by
  rw [List.count_append, count_singleton_nat]

/-- Invariant of the `while i < lst.len()` splitting loop: if every edge
of the graph either already spans exactly one level or is charged to the
unprocessed tail of the path (plus a frame `R` of pairs from other
paths), then at exit every edge either spans one level or is charged to
`R` alone; node levels never change for pre-existing nodes. -/
private theorem split_edge_loop_invariant :
    ∀ (fuel : Nat) (vg : VisualGraph) (i : Nat) (lst : List Nat)
      (vg2 : VisualGraph) (lst2 : List Nat) (R : Nat → Nat → Nat),
      vg.dag.levels.length = vg.dag.nodes.length →
      DAG.edges_in_range vg.dag →
      (∀ a b, a < vg.dag.nodes.length → b < vg.dag.nodes.length →
        vg.dag.level b = vg.dag.level a + 1 ∨
        (vg.dag.successors a).count b ≤
          (pathPairs (lst.drop (i - 1))).count (a, b) + R a b) →
      VisualGraph.split_edge_loop fuel vg i lst = some (vg2, lst2) →
      vg2.dag.levels.length = vg2.dag.nodes.length ∧
      vg.dag.nodes.length ≤ vg2.dag.nodes.length ∧
      (∀ x, x < vg.dag.levels.length → vg2.dag.level x = vg.dag.level x) ∧
      DAG.edges_in_range vg2.dag ∧
      (∀ a b, a < vg2.dag.nodes.length → b < vg2.dag.nodes.length →
        vg2.dag.level b = vg2.dag.level a + 1 ∨
        (vg2.dag.successors a).count b ≤ R a b) := by
  intro fuel
  induction fuel with
  | zero =>
    intro vg i lst vg2 lst2 R _ _ _ hrun
    exact absurd hrun (by simp [VisualGraph.split_edge_loop])
  | succ n ih =>
    intro vg i lst vg2 lst2 R hA0 hrange hinv hrun
    simp only [VisualGraph.split_edge_loop] at hrun
    by_cases hi : i < lst.length
    case neg =>
      rw [if_neg hi] at hrun
      injection hrun with hrun
      injection hrun with h1 h2
      subst h1
      subst h2
      refine ⟨hA0, Nat.le_refl _, fun x _ => rfl, hrange, ?_⟩
      intro a b ha hb
      rcases hinv a b ha hb with h | h
      · exact Or.inl h
      · right
        rw [pathPairs_short _ (by rw [List.length_drop]; omega)] at h
        simpa using h
    case pos =>
      rw [if_pos hi] at hrun
      by_cases h1i : 1 ≤ i
      case neg =>
        have hi0 : i = 0 := by omega
        subst hi0
        simp only [Nat.zero_sub] at hrun
        by_cases hb0 : lst.getD 0 0 < vg.dag.levels.length ∧
            lst.getD 0 0 < vg.dag.levels.length
        · rw [if_pos hb0, if_neg (lt_irrefl _)] at hrun
          exact absurd hrun (by simp)
        · rw [if_neg hb0] at hrun
          exact absurd hrun (by simp)
      case pos =>
        set prev := lst.getD (i - 1) 0 with hprevdef
        set curr := lst.getD i 0 with hcurrdef
        by_cases hb1 : prev < vg.dag.levels.length ∧
            curr < vg.dag.levels.length
        case neg =>
          rw [if_neg hb1] at hrun
          exact absurd hrun (by simp)
        case pos =>
          rw [if_pos hb1] at hrun
          by_cases hlt : vg.dag.level prev < vg.dag.level curr
          case neg =>
            rw [if_neg hlt] at hrun
            exact absurd hrun (by simp)
          case pos =>
            rw [if_pos hlt] at hrun
            by_cases hone : vg.dag.level prev + 1 = vg.dag.level curr
            case pos =>
              rw [if_pos hone] at hrun
              have hinv2 : ∀ a b, a < vg.dag.nodes.length →
                  b < vg.dag.nodes.length →
                  vg.dag.level b = vg.dag.level a + 1 ∨
                  (vg.dag.successors a).count b ≤
                    (pathPairs (lst.drop (i + 1 - 1))).count (a, b) + R a b
                  := by
                intro a b ha hb
                rcases hinv a b ha hb with h | h
                · exact Or.inl h
                · by_cases hab : (a, b) = (prev, curr)
                  · left
                    injection hab with e1 e2
                    subst e1
                    subst e2
                    exact hone.symm
                  · right
                    rw [pathPairs_drop_cons lst i h1i hi, ← hprevdef,
                      ← hcurrdef, count_cons_pair, if_neg hab] at h
                    simp only [Nat.add_sub_cancel]
                    omega
              exact ih vg (i + 1) lst vg2 lst2 R hA0 hrange hinv2 hrun
            case neg =>
              rw [if_neg hone] at hrun
              by_cases helems : prev < vg.elems.length
              case neg =>
                rw [if_neg helems] at hrun
                exact absurd hrun (by simp)
              case pos =>
                rw [if_pos helems] at hrun
                cases hr : vg.add_node connElem with
                | none =>
                  rw [hr] at hrun
                  exact absurd hrun (by simp)
                | some r =>
                  rw [hr] at hrun
                  simp only [Option.bind_eq_bind, Option.some_bind] at hrun
                  cases hr2 : r.1.dag.remove_edge prev curr with
                  | none =>
                    rw [hr2] at hrun
                    exact absurd hrun (by simp)
                  | some r2 =>
                    rw [hr2] at hrun
                    simp only [Option.bind_eq_bind, Option.some_bind] at hrun
                    cases hd2 : ((r2.1.add_edge prev r.2).add_edge r.2
                        curr).update_node_rank_level r.2
                        (vg.dag.level prev + 1) none with
                    | none =>
                      rw [hd2] at hrun
                      exact absurd hrun (by simp)
                    | some d2 =>
                      rw [hd2] at hrun
                      simp only [Option.bind_eq_bind, Option.some_bind] at hrun
                      obtain ⟨hconn, hlen2, hlevlen2, hpres, hlevconn,
                        hsprev, hsconn, hsother, hpcurr, hpconn2, hpother⟩ :=
                        split_insert_step vg prev curr
                          (vg.dag.level prev + 1) hA0 hb1.1 hb1.2 r hr r2
                          hr2 d2 hd2
                      have hpneq : prev ≠ r.2 := by omega
                      have hcneq : curr ≠ r.2 := by omega
                      have hA0n : ({ r.1 with dag := d2 } :
                          VisualGraph).dag.levels.length =
                          ({ r.1 with dag := d2 } :
                          VisualGraph).dag.nodes.length := by
                        show d2.levels.length = d2.nodes.length
                        rw [hlevlen2, hlen2]
                      have hrangen : DAG.edges_in_range
                          ({ r.1 with dag := d2 } : VisualGraph).dag := by
                        constructor
                        · intro a ha b hbmem
                          show b < d2.nodes.length
                          have ha2 : a < vg.dag.nodes.length + 1 := by
                            rw [← hlen2]
                            exact ha
                          rw [hlen2]
                          by_cases hac : a = r.2
                          · subst hac
                            rw [hsconn] at hbmem
                            simp at hbmem
                            omega
                          · by_cases hap : a = prev
                            · subst hap
                              rw [hsprev] at hbmem
                              rcases List.mem_append.mp hbmem with h | h
                              · have hbb : b < vg.dag.nodes.length :=
                                  hrange.1 prev (by
                                    show prev < vg.dag.nodes.length
                                    omega) b (List.mem_of_mem_erase h)
                                omega
                              · simp at h
                                omega
                            · rw [hsother a hap hac] at hbmem
                              have hbb : b < vg.dag.nodes.length :=
                                hrange.1 a (by
                                  show a < vg.dag.nodes.length
                                  omega) b hbmem
                              omega
                        · intro b hb a hamem
                          show a < d2.nodes.length
                          have hb2 : b < vg.dag.nodes.length + 1 := by
                            rw [← hlen2]
                            exact hb
                          rw [hlen2]
                          by_cases hbc : b = r.2
                          · subst hbc
                            rw [hpconn2] at hamem
                            simp at hamem
                            omega
                          · by_cases hbcu : b = curr
                            · subst hbcu
                              rw [hpcurr] at hamem
                              rcases List.mem_append.mp hamem with h | h
                              · have haa : a < vg.dag.nodes.length :=
                                  hrange.2 curr (by
                                    show curr < vg.dag.nodes.length
                                    omega) a (List.mem_of_mem_erase h)
                                omega
                              · simp at h
                                omega
                            · rw [hpother b hbcu hbc] at hamem
                              have haa : a < vg.dag.nodes.length :=
                                hrange.2 b (by
                                  show b < vg.dag.nodes.length
                                  omega) a hamem
                              omega
                      have hoT : pathPairs (lst.drop (i - 1)) =
                          (prev, curr) :: pathPairs (lst.drop i) := by
                        rw [pathPairs_drop_cons lst i h1i hi, ← hprevdef,
                          ← hcurrdef]
                      have hnT : pathPairs ((lst.insertIdx i r.2).drop
                          (i - 1)) =
                          (prev, r.2) :: (r.2, curr) ::
                            pathPairs (lst.drop i) := by
                        have hins := drop_insertIdx (i - 1) lst r.2
                          (by omega)
                        rw [show i - 1 + 1 = i from by omega] at hins
                        rw [hins, ← hprevdef]
                        have htl : lst.drop i = curr :: lst.drop (i + 1)
                            := by
                          rw [List.drop_eq_getElem_cons hi, hcurrdef,
                            getD_eq_get _ _ hi]
                        rw [htl]
                        rfl
                      have hinvn : ∀ a b,
                          a < ({ r.1 with dag := d2 } :
                            VisualGraph).dag.nodes.length →
                          b < ({ r.1 with dag := d2 } :
                            VisualGraph).dag.nodes.length →
                          ({ r.1 with dag := d2 } :
                            VisualGraph).dag.level b =
                            ({ r.1 with dag := d2 } :
                            VisualGraph).dag.level a + 1 ∨
                          (({ r.1 with dag := d2 } :
                            VisualGraph).dag.successors a).count b ≤
                            (pathPairs ((lst.insertIdx i r.2).drop
                              (i - 1))).count (a, b) + R a b := by
                        intro a b ha hb
                        have ha2 : a < vg.dag.nodes.length + 1 := by
                          rw [← hlen2]
                          exact ha
                        have hb2 : b < vg.dag.nodes.length + 1 := by
                          rw [← hlen2]
                          exact hb
                        show d2.level b = d2.level a + 1 ∨
                          (d2.successors a).count b ≤ _
                        by_cases hbc : b = r.2
                        · subst hbc
                          by_cases hap : a = prev
                          · subst hap
                            left
                            rw [hlevconn, hpres prev hb1.1]
                          · right
                            by_cases hac : a = r.2
                            · subst hac
                              rw [hsconn, count_singleton_nat,
                                if_neg (by omega)]
                              exact Nat.zero_le _
                            · rw [hsother a hap hac,
                                List.count_eq_zero.mpr (fun hmem =>
                                  absurd (hrange.1 a (by
                                    show a < vg.dag.nodes.length
                                    omega) r.2 hmem) (by
                                    show ¬ r.2 < vg.dag.nodes.length
                                    omega))]
                              exact Nat.zero_le _
                        · by_cases hac : a = r.2
                          · subst hac
                            right
                            rw [hsconn, count_singleton_nat]
                            by_cases hbcu : b = curr
                            · subst hbcu
                              rw [if_pos rfl, hnT, count_cons_pair,
                                count_cons_pair,
                                if_pos rfl,
                                if_neg (by
                                  simp only [Prod.mk.injEq]
                                  omega)]
                              omega
                            · rw [if_neg hbcu]
                              exact Nat.zero_le _
                          · have ha3 : a < vg.dag.nodes.length := by omega
                            have hb3 : b < vg.dag.nodes.length := by omega
                            rcases hinv a b ha3 hb3 with hfst | hsnd
                            · left
                              rw [hpres b (by omega), hpres a (by omega)]
                              exact hfst
                            · right
                              rw [hoT, count_cons_pair] at hsnd
                              rw [hnT, count_cons_pair, count_cons_pair]
                              by_cases hap : a = prev
                              · subst hap
                                rw [hsprev, count_snoc]
                                by_cases hbcu : b = curr
                                · subst hbcu
                                  rw [List.count_erase_self]
                                  rw [if_pos rfl] at hsnd
                                  rw [if_neg (by omega),
                                    if_neg (by
                                      simp only [Prod.mk.injEq]
                                      omega),
                                    if_neg (by
                                      simp only [Prod.mk.injEq]
                                      omega)]
                                  omega
                                · rw [List.count_erase_of_ne hbcu]
                                  rw [if_neg (by
                                    simp only [Prod.mk.injEq]
                                    omega)] at hsnd
                                  rw [if_neg (by omega),
                                    if_neg (by
                                      simp only [Prod.mk.injEq]
                                      omega),
                                    if_neg (by
                                      simp only [Prod.mk.injEq]
                                      omega)]
                                  omega
                              · rw [hsother a hap hac]
                                rw [if_neg (by
                                  simp only [Prod.mk.injEq]
                                  omega)] at hsnd
                                rw [if_neg (by
                                    simp only [Prod.mk.injEq]
                                    omega),
                                  if_neg (by
                                    simp only [Prod.mk.injEq]
                                    omega)]
                                omega
                      obtain ⟨exA0, exmono, expres, exrange, exinv⟩ :=
                        ih ({ r.1 with dag := d2 }) i
                          (lst.insertIdx i r.2) vg2 lst2 R hA0n hrangen
                          hinvn hrun
                      refine ⟨exA0, ?_, ?_, exrange, exinv⟩
                      · have h1 : ({ r.1 with dag := d2 } :
                            VisualGraph).dag.nodes.length =
                            vg.dag.nodes.length + 1 := hlen2
                        omega
                      · intro x hx
                        have hx2 : x < ({ r.1 with dag := d2 } :
                            VisualGraph).dag.levels.length := by
                          show x < d2.levels.length
                          rw [hlevlen2]
                          omega
                        rw [expres x hx2]
                        exact hpres x hx

private theorem pairCount_cons (e : EdgeM) (rest : List EdgeM) (a b : Nat) :
    pairCount (e :: rest) a b =
      (pathPairs e.path).count (a, b) + pairCount rest a b := by
  simp [pairCount]

private theorem succ_oob (g : DAG) (a : Nat) (h : g.nodes.length ≤ a) :
    g.successors a = [] := by
  show (g.nodes.getD a ⟨[], []⟩).successors = []
  rw [List.getD_eq_default _ _ h]

/-- Pushing the per-edge loop invariant through the whole edge fold: when
every edge of the graph is charged to the pairs of the unprocessed paths,
at the end every remaining DAG edge spans exactly one level. -/
private theorem split_edges_fold_spec :
    ∀ (rem : List EdgeM) (vgS : VisualGraph) (acc : List EdgeM)
      (res : VisualGraph × List EdgeM),
      rem.foldlM
        (fun (st : VisualGraph × List EdgeM) edge => do
          let fuel := (edge.path.length + 1) *
            (st.1.dag.levels.foldl max 0 + 2) + 1
          let r ← VisualGraph.split_edge_loop fuel st.1 1 edge.path
          pure (r.1, st.2 ++ [⟨edge.has_text, r.2⟩]))
        (vgS, acc) = some res →
      vgS.dag.levels.length = vgS.dag.nodes.length →
      DAG.edges_in_range vgS.dag →
      (∀ a b, a < vgS.dag.nodes.length → b < vgS.dag.nodes.length →
        vgS.dag.level b = vgS.dag.level a + 1 ∨
        (vgS.dag.successors a).count b ≤ pairCount rem a b) →
      ∀ a b, b ∈ res.1.dag.successors a →
        res.1.dag.level b = res.1.dag.level a + 1 := by
  intro rem
  induction rem with
  | nil =>
    intro vgS acc res hfold hA0 hrange hinv a b hmem
    rw [List.foldlM_nil] at hfold
    injection hfold with hfold
    subst hfold
    by_cases han : a < vgS.dag.nodes.length
    · have hbn : b < vgS.dag.nodes.length := hrange.1 a han b hmem
      rcases hinv a b han hbn with h | h
      · exact h
      · exfalso
        have hz : (vgS.dag.successors a).count b = 0 := by
          have : pairCount [] a b = 0 := by simp [pairCount]
          omega
        rw [List.count_eq_zero] at hz
        exact hz hmem
    · rw [succ_oob vgS.dag a (by omega)] at hmem
      simp at hmem
  | cons e rest ih =>
    intro vgS acc res hfold hA0 hrange hinv
    rw [List.foldlM_cons] at hfold
    dsimp only at hfold
    cases hl : VisualGraph.split_edge_loop
        ((e.path.length + 1) * (vgS.dag.levels.foldl max 0 + 2) + 1) vgS 1
        e.path with
    | none =>
      rw [hl] at hfold
      exact absurd hfold (by simp)
    | some r =>
      rw [hl] at hfold
      simp only [Option.bind_eq_bind, Option.some_bind, Option.pure_def,
        Option.some_bind] at hfold
      have hinv1 : ∀ a b, a < vgS.dag.nodes.length →
          b < vgS.dag.nodes.length →
          vgS.dag.level b = vgS.dag.level a + 1 ∨
          (vgS.dag.successors a).count b ≤
            (pathPairs (e.path.drop (1 - 1))).count (a, b) +
              (fun a b => pairCount rest a b) a b := by
        intro a b ha hb
        rcases hinv a b ha hb with h | h
        · exact Or.inl h
        · right
          rw [pairCount_cons] at h
          simpa using h
      obtain ⟨exA0, exmono, expres, exrange, exinv⟩ :=
        split_edge_loop_invariant _ vgS 1 e.path r.1 r.2
          (fun a b => pairCount rest a b) hA0 hrange hinv1 hl
      exact ih r.1 (acc ++ [⟨e.has_text, r.2⟩]) res hfold exA0 exrange exinv

/-- C1: starting from a `VisualGraph` whose DAG has been ranked so that
every DAG edge `a -> b` satisfies `rank[a] < rank[b]`, and whose DAG edges
are exactly the consecutive pairs of the edge paths (with multiplicity,
`hcover`), the long-edge splitting pass of `split_long_edges` returns a
graph in which every DAG edge `a -> b` satisfies
`rank[b] - rank[a] = 1` - every DAG edge spans exactly one level. -/
theorem split_long_edges_unit_spans (vg : VisualGraph)
    (hlen : vg.dag.levels.length = vg.dag.nodes.length)
    (hrange : DAG.edges_in_range vg.dag)
    (hranked : ∀ a, a < vg.dag.nodes.length →
      ∀ b ∈ vg.dag.successors a, vg.dag.level a < vg.dag.level b)
    (hcover : ∀ a, a < vg.dag.nodes.length →
      ∀ b, b < vg.dag.nodes.length →
      (vg.dag.successors a).count b ≤ pairCount vg.edges a b)
    (res : VisualGraph × List EdgeM)
    (hrun : vg.split_edges_pass = some res) :
    ∀ a b, b ∈ res.1.dag.successors a →
      res.1.dag.level b = res.1.dag.level a + 1 := by
  rw [VisualGraph.split_edges_pass] at hrun
  exact split_edges_fold_spec vg.edges { vg with edges := [] } [] res hrun
    hlen hrange (fun a b ha hb => Or.inr (hcover a ha b hb))

/-- A two-node graph, ranked `0` and `2`, with the single edge `0 -> 1`
spanning two levels. -/
def cvgSplit : VisualGraph :=
  { dag := { nodes := [⟨[1], []⟩, ⟨[], [0]⟩], ranks := [[0], [], [1]]
             levels := [0, 2] }
    elems := [⟨⟨⟨0, 0⟩, ⟨2, 2⟩, ⟨0, 0⟩, ⟨0, 0⟩⟩, false⟩,
      ⟨⟨⟨0, 10⟩, ⟨2, 2⟩, ⟨0, 0⟩, ⟨0, 0⟩⟩, false⟩]
    edges := [⟨false, [0, 1]⟩]
    self_edges := [] }

/-- Witness for C1: on `cvgSplit` the pass inserts one connector and
every resulting DAG edge spans exactly one level. -/
theorem split_long_edges_unit_spans_witness :
    DAG.edges_in_range cvgSplit.dag ∧
    ∃ res, cvgSplit.split_edges_pass = some res ∧
      ∀ a b, b ∈ res.1.dag.successors a →
        res.1.dag.level b = res.1.dag.level a + 1 :=
  ⟨by decide, _, rfl,
    split_long_edges_unit_spans cvgSplit (by decide) (by decide) (by decide)
      (by decide) _ rfl⟩

end SplitProof

end Layout
